import Mathlib

set_option maxRecDepth 100000

/-!
Shallow embedding of `src/logic.js` (Syndamia/logic-truth-table-calculator).

The program is a textual propositional-logic truth-table calculator built on
JavaScript regex rewriting plus `eval`.  Strings are modelled as `List Char`
(wrapped into `String` at the API boundary).  Each regular expression of the
source's `regularExpressions` table is embedded as a hand-rolled matcher with
exactly the semantics of that concrete pattern (lookbehind on the previous
character of the original string, ordered alternation, greedy token runs,
lazy/greedy groups for `thenWrap`), and `String.prototype.replaceAll` is
embedded as a left-to-right scan over the original string in which matched
spans are replaced and scanning resumes after the match (replacements are
never rescanned, which is `replaceAll`'s semantics).

Several recursions use an explicit fuel argument initialised to a value that
provably dominates the number of iterations (each iteration consumes at least
one character); the fuel-exhaustion branch is unreachable for those initial
values and merely returns the current string.
-/

namespace Logic

/-- JS line terminators (what `.` in a regex without the `s` flag excludes;
character classes such as `[^-]` still match them). -/
def lineTerm (c : Char) : Bool :=
  c = '\n' ∨ c = '\r' ∨ c = Char.ofNat 0x2028 ∨ c = Char.ofNat 0x2029

/-- JS whitespace for `String.prototype.trim` (the common cases). -/
def isJsWs (c : Char) : Bool :=
  c = ' ' ∨ c = '\t' ∨ c = '\n' ∨ c = '\r' ∨ c = Char.ofNat 0x0b ∨
  c = Char.ofNat 0x0c ∨ c = Char.ofNat 0xa0 ∨ c = Char.ofNat 0xfeff

/-- Embedding of `String.prototype.trim`. -/
def jsTrim (s : List Char) : List Char :=
  ((s.dropWhile isJsWs).reverse.dropWhile isJsWs).reverse

/-- JS `\w` word character, used by the `\b` boundaries of the per-premise
substitution regexes. -/
def wordChar (c : Char) : Bool :=
  ('A' ≤ c ∧ c ≤ 'Z') ∨ ('a' ≤ c ∧ c ≤ 'z') ∨ ('0' ≤ c ∧ c ≤ '9') ∨ c = '_'

/-- Character class `[^\W\s01]` of `regularExpressions.premises`:
word characters except the digits `0` and `1`. -/
def premChar (c : Char) : Bool :=
  ('A' ≤ c ∧ c ≤ 'Z') ∨ ('a' ≤ c ∧ c ≤ 'z') ∨ ('2' ≤ c ∧ c ≤ '9') ∨ c = '_'

/-- ASCII lower-casing, for the case-insensitive (`i` flag) premise
substitution. -/
def lcAscii (c : Char) : Char :=
  if 'A' ≤ c ∧ c ≤ 'Z' then Char.ofNat (c.toNat + 32) else c

/-- A replaceAll matcher: given the previous character of the original string
(`none` at the start) and the remaining characters, return the length of the
match starting here together with its replacement text, or `none`. -/
abbrev Matcher := Option Char → List Char → Option (Nat × List Char)

/-- Embedding of `String.prototype.replaceAll(regexp, …)`: scan the original
string left to right; at each position ask the matcher; on a match emit the
replacement and resume after the matched span (the previous-character context
for later lookbehinds is the last character of the matched span of the
original string).  Fuel decreases every step; every matcher used here matches
at least one character, so `s.length + 1` fuel always suffices. -/
def scanRA (m : Matcher) : Nat → Option Char → List Char → List Char
  | 0, _, s => s
  | _ + 1, _, [] => []
  | fuel + 1, prev, c :: rest =>
    match m prev (c :: rest) with
    | some (n, r) =>
      r ++ scanRA m fuel (some ((c :: rest).getD (n - 1) c)) ((c :: rest).drop n)
    | none => c :: scanRA m fuel (some c) rest

/-- Run a matcher over a whole string, `replaceAll` style. -/
def replaceAllRA (m : Matcher) (s : List Char) : List Char :=
  scanRA m (s.length + 1) none s

/-- Lookbehind test: `none` is the start of the string (always allowed, `^`);
otherwise the previous character must be in `cs`. -/
def prevIn (prev : Option Char) (cs : List Char) : Bool :=
  match prev with
  | none => true
  | some c => cs.contains c

/-- Length of a maximal token run, given a step function returning the length
of one token at the head (tokens are nonempty, so fuel `s.length + 1`
suffices). -/
def runLen (step : List Char → Option Nat) : Nat → List Char → Nat
  | 0, _ => 0
  | fuel + 1, s =>
    match step s with
    | some n => n + runLen step fuel (s.drop n)
    | none => 0

/-- One token of `regularExpressions.and`: `(and|[&]|\/\\|\^)`. -/
def andStep : List Char → Option Nat
  | 'a' :: 'n' :: 'd' :: _ => some 3
  | '&' :: _ => some 1
  | '/' :: '\\' :: _ => some 2
  | '^' :: _ => some 1
  | _ => none

/-- One token of `regularExpressions.or`: `(or|[\|]|\\\/)`. -/
def orStep : List Char → Option Nat
  | 'o' :: 'r' :: _ => some 2
  | '|' :: _ => some 1
  | '\\' :: '/' :: _ => some 2
  | _ => none

/-- One token of `regularExpressions.not`: `(not |not|!|Â¬)` — the source
file's "¬" is the two-byte sequence U+00C2 U+00AC, embedded verbatim. -/
def notStep : List Char → Option Nat
  | 'n' :: 'o' :: 't' :: ' ' :: _ => some 4
  | 'n' :: 'o' :: 't' :: _ => some 3
  | '!' :: _ => some 1
  | 'Â' :: '¬' :: _ => some 2
  | _ => none

/-- Length of the leading run of `-` characters. -/
def dashRun : List Char → Nat
  | '-' :: r => dashRun r + 1
  | _ => 0

/-- One token of `regularExpressions.equals`: `(<-+>|=)`. -/
def eqStep : List Char → Option Nat
  | '=' :: _ => some 1
  | '<' :: rest =>
    let d := dashRun rest
    if d = 0 then none
    else match rest.drop d with
      | '>' :: _ => some (d + 2)
      | _ => none
  | _ => none

/-- One token of `regularExpressions.xor`: `(\(\+\)|xor)`. -/
def xorStep : List Char → Option Nat
  | '(' :: '+' :: ')' :: _ => some 3
  | 'x' :: 'o' :: 'r' :: _ => some 3
  | _ => none

/-- Matcher for the run-style operator regexes
`(?<= …)(tok)+ (?= … )`: lookbehind set `behind` (plus start of string),
a nonempty greedy token run, and an optional lookahead set (`none` = no
lookahead; `some cs` = next char in `cs` or end of string).  Because every
token class here is determined by its first character, greedy matching
without backtracking is exact, and a failed lookahead cannot be saved by a
shorter run (a shorter run always ends right before another token
character, never before a space). -/
def tokRunMatcher (behind : List Char) (step : List Char → Option Nat)
    (ahead : Option (List Char)) (repl : List Char) : Matcher :=
  fun prev s =>
    if prevIn prev behind then
      let n := runLen step (s.length + 1) s
      if n = 0 then none
      else
        match ahead with
        | none => some (n, repl)
        | some cs =>
          match s.drop n with
          | [] => some (n, repl)
          | c :: _ => if cs.contains c then some (n, repl) else none
    else none

/-- Matcher for `regularExpressions.true` / `.false`:
`(?<= |^|\(|\))(X|xword)(?= |$|\(|\))+` with ordered alternation (single
letter first, then the word). -/
def litMatcher (letter : Char) (word : List Char) (repl : List Char) : Matcher :=
  fun prev s =>
    if prevIn prev [' ', '(', ')'] then
      let aheadOk : Nat → Bool := fun n =>
        match s.drop n with
        | [] => true
        | c :: _ => c = ' ' ∨ c = '(' ∨ c = ')'
      match s with
      | c :: _ =>
        if c = letter ∧ aheadOk 1 then some (1, repl)
        else if word.isPrefixOf s ∧ aheadOk word.length then some (word.length, repl)
        else none
      | [] => none
    else none

/-- Matcher for `regularExpressions.then`: `(then|(?<!<)-+>)` — no word
boundaries; the arrow alternative is blocked when the previous character is
`<`. -/
def thenMatcher (repl : List Char) : Matcher :=
  fun prev s =>
    if ('t' :: 'h' :: 'e' :: 'n' :: []).isPrefixOf s then some (4, repl)
    else
      match s with
      | '-' :: _ =>
        if prev = some '<' then none
        else
          let d := dashRun s
          match s.drop d with
          | '>' :: _ => some (d + 1, repl)
          | _ => none
      | _ => none

/-- Connector of `regularExpressions.thenWrap` at a given position:
`(?:then|(?<!<)-+>)` where `prevc` is the character immediately before the
connector (the last character of group 1). -/
def twConn (prevc : Char) (s : List Char) : Option Nat :=
  if ('t' :: 'h' :: 'e' :: 'n' :: []).isPrefixOf s then some 4
  else
    match s with
    | '-' :: _ =>
      if prevc = '<' then none
      else
        let d := dashRun s
        match s.drop d with
        | '>' :: _ => some (d + 1)
        | _ => none
    | _ => none

/-- Length of the maximal run of non-line-terminator characters (what the
greedy `(.+)` of `thenWrap` captures). -/
def lineRunLen : List Char → Nat
  | [] => 0
  | c :: r => if lineTerm c then 0 else lineRunLen r + 1

/-- Lazy search for group 1 of `thenWrap` (`(.[^-]+?)`): starting with group-1
length `l` (initially 1: the `.`), repeatedly extend group 1 by one non-dash
character and test the connector right after it; the first success (shortest
group 1, matching the lazy `+?`) wins.  Returns
(group-1 length, connector length, group-2 length); a connector with an empty
group 2 is skipped, which is the regex backtracking into a longer group 1. -/
def twFind : Nat → Nat → List Char → Option (Nat × Nat × Nat)
  | 0, _, _ => none
  | fuel + 1, l, rem =>
    match rem with
    | [] => none
    | c :: rest =>
      if c = '-' then none
      else
        match twConn c rest with
        | some cl =>
          let p2 := lineRunLen (rest.drop cl)
          if p2 = 0 then twFind fuel (l + 1) rest else some (l + 1, cl, p2)
        | none => twFind fuel (l + 1) rest

/-- Matcher for `regularExpressions.thenWrap`
`(.[^-]+?)(?:then|(?<!<)-+>)(.+)` with the function replacement
`'!(' + p1.trim() + ') || (' + p2.trim() + ')'` of `parse`. -/
def thenWrapMatcher : Matcher :=
  fun _ s =>
    match s with
    | [] => none
    | c0 :: rest =>
      if lineTerm c0 then none
      else
        match twFind (rest.length + 1) 1 rest with
        | some (p1l, cl, p2l) =>
          let p1 := s.take p1l
          let p2 := (s.drop (p1l + cl)).take p2l
          some (p1l + cl + p2l,
            ('!' :: '(' :: jsTrim p1) ++ (')' :: ' ' :: '|' :: '|' :: ' ' :: '(' :: jsTrim p2) ++ [')'])
        | none => none

/-- The `thenWrap` replaceAll pass of `parse`. -/
def thenWrapRA (s : List Char) : List Char :=
  replaceAllRA thenWrapMatcher s

/-- The `not` replacement pass with a given replacement text. -/
def notRA (repl : List Char) (s : List Char) : List Char :=
  replaceAllRA (tokRunMatcher [' ', '(', ')'] notStep none repl) s

/-- The `and` replacement pass with a given replacement text. -/
def andRA (repl : List Char) (s : List Char) : List Char :=
  replaceAllRA (tokRunMatcher [' '] andStep (some [' ']) repl) s

/-- The `or` replacement pass with a given replacement text. -/
def orRA (repl : List Char) (s : List Char) : List Char :=
  replaceAllRA (tokRunMatcher [' '] orStep (some [' ']) repl) s

/-- The `equals` replacement pass with a given replacement text. -/
def equalsRA (repl : List Char) (s : List Char) : List Char :=
  replaceAllRA (tokRunMatcher [' '] eqStep (some [' ']) repl) s

/-- The `xor` replacement pass with a given replacement text. -/
def xorRA (repl : List Char) (s : List Char) : List Char :=
  replaceAllRA (tokRunMatcher [' '] xorStep (some [' ']) repl) s

/-- The `true` replacement pass of `parse`. -/
def trueRA (s : List Char) : List Char :=
  replaceAllRA (litMatcher 'T' ('t' :: 'r' :: 'u' :: 'e' :: []) ['1']) s

/-- The `false` replacement pass of `parse`. -/
def falseRA (s : List Char) : List Char :=
  replaceAllRA (litMatcher 'F' ('f' :: 'a' :: 'l' :: 's' :: 'e' :: []) ['0']) s

/-- The loop body of `replaceParanthesis`.  State: current string `s`, index
`i`, nesting `control`, and `startIndex` (initially `-1` as in the source).
On a closing parenthesis that returns `control` to 0, the interior
`substr(startIndex+1, i-startIndex-1)` is passed to the callback and spliced
back between the parentheses, and `i` is set to
`startIndex + replacement.length + 3` before the loop's `i++` — exactly the
source, including its off-by-two skip.  Each iteration strictly decreases
`s.length - i`, so fuel `s.length + 1` always suffices. -/
def rpLoop (cb : List Char → List Char) :
    Nat → List Char → Nat → Int → Int → List Char
  | 0, s, _, _, _ => s
  | fuel + 1, s, i, control, startIndex =>
    if i < s.length then
      let c := s.getD i ' '
      if c = '(' then
        rpLoop cb fuel s (i + 1) (control + 1)
          (if control + 1 = 1 then (i : Int) else startIndex)
      else if c = ')' then
        if control - 1 = 0 then
          let si1 : Nat := (startIndex + 1).toNat
          let interior := (s.drop si1).take (((i : Int) - startIndex - 1).toNat)
          let repl := cb interior
          let s' := s.take si1 ++ repl ++ s.drop i
          rpLoop cb fuel s' ((startIndex + (repl.length : Int) + 3).toNat + 1)
            (control - 1) startIndex
        else rpLoop cb fuel s (i + 1) (control - 1) startIndex
      else rpLoop cb fuel s (i + 1) control startIndex
    else s

/-- Body of `parse`, with a fuel bound on the recursion depth through
`replaceParanthesis` (each parenthesis interior is strictly shorter than the
enclosing string, so `s.length + 1` fuel always suffices).  The passes run in
the source's order: parentheses, `thenWrap`, `not`, `and`, `or`, `equals`,
`xor`, `true`, `false`. -/
def parseFuel : Nat → List Char → List Char
  | 0, s => s
  | fuel + 1, s =>
    let s1 := rpLoop (parseFuel fuel) (s.length + 1) s 0 0 (-1)
    let s2 := thenWrapRA s1
    falseRA (trueRA (xorRA ['^'] (equalsRA ('=' :: '=' :: [])
      (orRA ('|' :: '|' :: []) (andRA ('&' :: '&' :: []) (notRA ['!'] s2))))))

/-- The `parse` function on lists of characters. -/
def parseL (s : List Char) : List Char :=
  parseFuel (s.length + 1) s

/-- Transforms a piece of propositional logic into a JavaScript code literal
(`parse` of the source). -/
def parse (s : String) : String :=
  ⟨parseL s.data⟩

/-- Embedding of `replaceParanthesis(string, callback)` of the source. -/
def replaceParanthesis (s : String) (callback : String → String) : String :=
  ⟨rpLoop (fun l => (callback ⟨l⟩).data) (s.length + 1) s.data 0 0 (-1)⟩

/-- Matcher of a plain single-character `replaceAll(c, repl)`. -/
def charMatcher (ch : Char) (repl : List Char) : Matcher :=
  fun _ s =>
    match s with
    | c :: _ => if c = ch then some (1, repl) else none
    | [] => none

/-- The `prettyPrint` function on lists of characters: `and`, `or`, `not`,
`then`, `xor`, `equals` replaced by display glyph entities, then `(` and `)`
by `&lpar;` / `&rpar;` (the last two are the plain character replaceAlls of
the source, expressed with the same scanner). -/
def prettyPrintL (s : List Char) : List Char :=
  let a := andRA ('&' :: 'a' :: 'n' :: 'd' :: ';' :: []) s
  let b := orRA ('&' :: 'o' :: 'r' :: ';' :: []) a
  let c := notRA ('&' :: 's' :: 'i' :: 'm' :: ';' :: []) b
  let d := replaceAllRA (thenMatcher ('&' :: 'r' :: 'a' :: 'r' :: 'r' :: ';' :: [])) c
  let e := xorRA ('&' :: 'o' :: 'p' :: 'l' :: 'u' :: 's' :: ';' :: []) d
  let f := equalsRA ('&' :: 'e' :: 'q' :: 'u' :: 'i' :: 'v' :: ';' :: []) e
  let g := replaceAllRA (charMatcher '(' ('&' :: 'l' :: 'p' :: 'a' :: 'r' :: ';' :: [])) f
  replaceAllRA (charMatcher ')' ('&' :: 'r' :: 'p' :: 'a' :: 'r' :: ';' :: [])) g

/-- Embedding of `prettyPrint` of the source (`format_display` of the spec). -/
def prettyPrint (s : String) : String :=
  ⟨prettyPrintL s.data⟩



/-! ### JavaScript values and the `eval` fragment

The source evaluates each fully-substituted row code with the JavaScript
`eval`.  The embedding models the expression fragment that the compiled
codes (and their evaluation-relevant neighbourhood) can contain: the
literals `true`/`false` and decimal numerals, identifiers, parentheses, and
the operators `!`, `==`, `^`, `&`, `|`, `&&`, `||` with JavaScript's
precedence (`!` highest, then `==`, then `&`, then `^`, then `|`, then
`&&`, then `||`) and JavaScript value semantics: `&&`/`||` return an
operand value, `^`/`&`/`|` coerce to 32-bit integers and return a number,
`==` is loose equality.  Any token outside this fragment makes evaluation
fail, as a `SyntaxError` does in the source; evaluating an identifier fails
like the `ReferenceError` the source would throw (identifiers skipped by
short-circuiting do not fail).  An empty or all-whitespace code evaluates
to `undefined` without failing, as `eval` does. -/

/-- A JavaScript value of the modelled fragment. -/
inductive JSVal where
  | bool (b : Bool)
  | num (n : Int)
  | undef
deriving DecidableEq, Repr

/-- JavaScript ToBoolean on the modelled values. -/
def JSVal.toBool : JSVal → Bool
  | .bool b => b
  | .num n => decide (n ≠ 0)
  | .undef => false

/-- JavaScript ToInt32 (32-bit signed wrap) of an integer. -/
def toInt32 (n : Int) : Int :=
  let m := n % (2 ^ 32 : Int)
  if m < 2 ^ 31 then m else m - 2 ^ 32

/-- JavaScript ToInt32 on the modelled values (`undefined` is NaN, which
converts to 0). -/
def JSVal.toI32 : JSVal → Int
  | .bool b => if b then 1 else 0
  | .num n => toInt32 n
  | .undef => 0

/-- Unsigned 32-bit view of an already-wrapped 32-bit integer. -/
def u32 (n : Int) : Nat := (n % (2 ^ 32 : Int)).toNat

/-- Signed view of an unsigned 32-bit value. -/
def s32 (n : Nat) : Int :=
  if (n : Int) < 2 ^ 31 then (n : Int) else (n : Int) - 2 ^ 32

/-- JavaScript loose equality `==` on the modelled values (same-type
comparison; boolean against number compares after ToNumber; `undefined`
equals only `undefined`). -/
def jsEq : JSVal → JSVal → Bool
  | .bool a, .bool b => a = b
  | .num a, .num b => a = b
  | .bool a, .num b => (if a then (1 : Int) else 0) = b
  | .num a, .bool b => a = (if b then (1 : Int) else 0)
  | .undef, .undef => true
  | .undef, _ => false
  | _, .undef => false

/-- Tokens of the modelled `eval` fragment. -/
inductive Tok where
  | lpar | rpar | bang | ampamp | pipepipe | eqeq | caret | amp | pipe
  | num (n : Nat)
  | word (w : List Char)
deriving DecidableEq, Repr

/-- Decimal value of a digit run. -/
def digitsVal (acc : Nat) : List Char → Nat
  | [] => acc
  | c :: r => digitsVal (acc * 10 + (c.toNat - '0'.toNat)) r

/-- Leading run of decimal digits. -/
def digitRun : List Char → List Char
  | c :: r => if '0' ≤ c ∧ c ≤ '9' then c :: digitRun r else []
  | [] => []

/-- Leading run of identifier characters (letters, digits, `_`, `$`). -/
def identRun : List Char → List Char
  | c :: r =>
    if ('A' ≤ c ∧ c ≤ 'Z') ∨ ('a' ≤ c ∧ c ≤ 'z') ∨ ('0' ≤ c ∧ c ≤ '9') ∨
        c = '_' ∨ c = '$' then c :: identRun r else []
  | [] => []

/-- Tokenizer of the modelled `eval` fragment; `none` is a syntax error.
Fuel `s.length + 1` suffices (every token consumes at least one char). -/
def jsTokens : Nat → List Char → Option (List Tok)
  | 0, _ => none
  | _ + 1, [] => some []
  | fuel + 1, c :: rest =>
    if isJsWs c then jsTokens fuel rest
    else if c = '(' then (jsTokens fuel rest).map (Tok.lpar :: ·)
    else if c = ')' then (jsTokens fuel rest).map (Tok.rpar :: ·)
    else if c = '!' then (jsTokens fuel rest).map (Tok.bang :: ·)
    else if c = '^' then (jsTokens fuel rest).map (Tok.caret :: ·)
    else if c = '&' then
      match rest with
      | '&' :: r2 => (jsTokens fuel r2).map (Tok.ampamp :: ·)
      | _ => (jsTokens fuel rest).map (Tok.amp :: ·)
    else if c = '|' then
      match rest with
      | '|' :: r2 => (jsTokens fuel r2).map (Tok.pipepipe :: ·)
      | _ => (jsTokens fuel rest).map (Tok.pipe :: ·)
    else if c = '=' then
      match rest with
      | '=' :: r2 => (jsTokens fuel r2).map (Tok.eqeq :: ·)
      | _ => none
    else if '0' ≤ c ∧ c ≤ '9' then
      let ds := digitRun (c :: rest)
      (jsTokens fuel ((c :: rest).drop ds.length)).map (Tok.num (digitsVal 0 ds) :: ·)
    else if ('A' ≤ c ∧ c ≤ 'Z') ∨ ('a' ≤ c ∧ c ≤ 'z') ∨ c = '_' ∨ c = '$' then
      let w := identRun (c :: rest)
      (jsTokens fuel ((c :: rest).drop w.length)).map (Tok.word w :: ·)
    else none

/-- Abstract syntax of the modelled `eval` fragment. -/
inductive JSExpr where
  | lit (v : JSVal)
  | ident (w : List Char)
  | bang (e : JSExpr)
  | bor (a b : JSExpr)
  | band (a b : JSExpr)
  | bxor (a b : JSExpr)
  | beq (a b : JSExpr)
  | bitand (a b : JSExpr)
  | bitor (a b : JSExpr)
deriving DecidableEq, Repr

mutual
/-- Primary: literal, identifier, or parenthesised expression.  All parser
levels recurse structurally on a fuel argument; `jsTokens` output length
times ten plus ten always suffices (each fuel level either consumes a token
or descends one precedence level, of which there are eight). -/
def parsePrim : Nat → List Tok → Option (JSExpr × List Tok)
  | 0, _ => none
  | fuel + 1, ts =>
    match ts with
    | Tok.num n :: r => some (.lit (.num (n : Int)), r)
    | Tok.word w :: r =>
      if w = 't' :: 'r' :: 'u' :: 'e' :: [] then some (.lit (.bool true), r)
      else if w = 'f' :: 'a' :: 'l' :: 's' :: 'e' :: [] then some (.lit (.bool false), r)
      else if w = 'u' :: 'n' :: 'd' :: 'e' :: 'f' :: 'i' :: 'n' :: 'e' :: 'd' :: [] then
        some (.lit .undef, r)
      else some (.ident w, r)
    | Tok.lpar :: r =>
      match parseOrL fuel r with
      | some (e, Tok.rpar :: r2) => some (e, r2)
      | _ => none
    | _ => none

/-- Unary `!` level. -/
def parseUnary : Nat → List Tok → Option (JSExpr × List Tok)
  | 0, _ => none
  | fuel + 1, ts =>
    match ts with
    | Tok.bang :: r =>
      match parseUnary fuel r with
      | some (e, r2) => some (.bang e, r2)
      | none => none
    | _ => parsePrim fuel ts

/-- Equality `==` level (tightest binary level of the fragment),
left-associative. -/
def parseEqL : Nat → List Tok → Option (JSExpr × List Tok)
  | 0, _ => none
  | fuel + 1, ts =>
    match parseUnary fuel ts with
    | some (e, r) => parseEqRest fuel e r
    | none => none

/-- Rest-loop of the `==` level. -/
def parseEqRest : Nat → JSExpr → List Tok → Option (JSExpr × List Tok)
  | 0, _, _ => none
  | fuel + 1, acc, ts =>
    match ts with
    | Tok.eqeq :: r =>
      match parseUnary fuel r with
      | some (e, r2) => parseEqRest fuel (.beq acc e) r2
      | none => none
    | _ => some (acc, ts)

/-- Bitwise `&` level, left-associative. -/
def parseBitAndL : Nat → List Tok → Option (JSExpr × List Tok)
  | 0, _ => none
  | fuel + 1, ts =>
    match parseEqL fuel ts with
    | some (e, r) => parseBitAndRest fuel e r
    | none => none

/-- Rest-loop of the `&` level. -/
def parseBitAndRest : Nat → JSExpr → List Tok → Option (JSExpr × List Tok)
  | 0, _, _ => none
  | fuel + 1, acc, ts =>
    match ts with
    | Tok.amp :: r =>
      match parseEqL fuel r with
      | some (e, r2) => parseBitAndRest fuel (.bitand acc e) r2
      | none => none
    | _ => some (acc, ts)

/-- Bitwise `^` level, left-associative. -/
def parseXorL : Nat → List Tok → Option (JSExpr × List Tok)
  | 0, _ => none
  | fuel + 1, ts =>
    match parseBitAndL fuel ts with
    | some (e, r) => parseXorRest fuel e r
    | none => none

/-- Rest-loop of the `^` level. -/
def parseXorRest : Nat → JSExpr → List Tok → Option (JSExpr × List Tok)
  | 0, _, _ => none
  | fuel + 1, acc, ts =>
    match ts with
    | Tok.caret :: r =>
      match parseBitAndL fuel r with
      | some (e, r2) => parseXorRest fuel (.bxor acc e) r2
      | none => none
    | _ => some (acc, ts)

/-- Bitwise `|` level, left-associative. -/
def parseBitOrL : Nat → List Tok → Option (JSExpr × List Tok)
  | 0, _ => none
  | fuel + 1, ts =>
    match parseXorL fuel ts with
    | some (e, r) => parseBitOrRest fuel e r
    | none => none

/-- Rest-loop of the `|` level. -/
def parseBitOrRest : Nat → JSExpr → List Tok → Option (JSExpr × List Tok)
  | 0, _, _ => none
  | fuel + 1, acc, ts =>
    match ts with
    | Tok.pipe :: r =>
      match parseXorL fuel r with
      | some (e, r2) => parseBitOrRest fuel (.bitor acc e) r2
      | none => none
    | _ => some (acc, ts)

/-- Logical `&&` level, left-associative. -/
def parseAndL : Nat → List Tok → Option (JSExpr × List Tok)
  | 0, _ => none
  | fuel + 1, ts =>
    match parseBitOrL fuel ts with
    | some (e, r) => parseAndRest fuel e r
    | none => none

/-- Rest-loop of the `&&` level. -/
def parseAndRest : Nat → JSExpr → List Tok → Option (JSExpr × List Tok)
  | 0, _, _ => none
  | fuel + 1, acc, ts =>
    match ts with
    | Tok.ampamp :: r =>
      match parseBitOrL fuel r with
      | some (e, r2) => parseAndRest fuel (.band acc e) r2
      | none => none
    | _ => some (acc, ts)

/-- Logical `||` level (loosest), left-associative. -/
def parseOrL : Nat → List Tok → Option (JSExpr × List Tok)
  | 0, _ => none
  | fuel + 1, ts =>
    match parseAndL fuel ts with
    | some (e, r) => parseOrRest fuel e r
    | none => none

/-- Rest-loop of the `||` level. -/
def parseOrRest : Nat → JSExpr → List Tok → Option (JSExpr × List Tok)
  | 0, _, _ => none
  | fuel + 1, acc, ts =>
    match ts with
    | Tok.pipepipe :: r =>
      match parseAndL fuel r with
      | some (e, r2) => parseOrRest fuel (.bor acc e) r2
      | none => none
    | _ => some (acc, ts)
end

/-- Evaluation of the modelled fragment; `none` is a thrown error
(evaluating an identifier is a `ReferenceError`; short-circuited operands
are not evaluated, exactly as in JavaScript). -/
def evalE : JSExpr → Option JSVal
  | .lit v => some v
  | .ident _ => none
  | .bang e => (evalE e).map (fun v => .bool (!v.toBool))
  | .band a b => do
    let va ← evalE a
    if va.toBool then evalE b else pure va
  | .bor a b => do
    let va ← evalE a
    if va.toBool then pure va else evalE b
  | .beq a b => do
    let va ← evalE a
    let vb ← evalE b
    pure (.bool (jsEq va vb))
  | .bxor a b => do
    let va ← evalE a
    let vb ← evalE b
    pure (.num (s32 (Nat.xor (u32 va.toI32) (u32 vb.toI32))))
  | .bitand a b => do
    let va ← evalE a
    let vb ← evalE b
    pure (.num (s32 (Nat.land (u32 va.toI32) (u32 vb.toI32))))
  | .bitor a b => do
    let va ← evalE a
    let vb ← evalE b
    pure (.num (s32 (Nat.lor (u32 va.toI32) (u32 vb.toI32))))

/-- Embedding of `eval(rowCode)` on the modelled fragment: tokenize, parse a
complete expression, evaluate.  An empty token stream yields `undefined`
(as `eval('')` does); leftover tokens are a syntax error. -/
def evalCodeL (s : List Char) : Option JSVal :=
  match jsTokens (s.length + 1) s with
  | none => none
  | some [] => some .undef
  | some ts =>
    match parseOrL (ts.length * 10 + 10) ts with
    | some (e, []) => evalE e
    | _ => none

/-- Convenience wrapper of `evalCodeL` on `String`. -/
def evalCode (s : String) : Option JSVal :=
  evalCodeL s.data

/-! ### The Cartesian product -/

/-- A JavaScript array as built by index assignments: its `length` (one past
the highest index written) and its contents (`none` = hole / `undefined`). -/
structure JSArr (A : Type) where
  size : Nat
  data : Nat → Option (List A)

/-- Embedding of the body of the inner loop of `cartesianProduct`:
`if (!cartesian[x]) cartesian[x] = [v]; else cartesian[x].push(v)`. -/
def jsWrite {A : Type} (a : JSArr A) (x : Nat) (v : A) : JSArr A :=
  { size := max a.size (x + 1)
    data := fun y =>
      if y = x then
        match a.data x with
        | none => some [v]
        | some l => some (l ++ [v])
      else a.data y }

/-- Embedding of `cartesianProduct(params)`: for each matrix `i`, with
`innerFreq` the product of the lengths of the later matrices and `outerFreq`
the product of the lengths of the earlier ones, write
`matrices[i][j]` at every index `x = j*innerFreq + k + h*innerFreq*len`
(`h < outerFreq`, `j < len`, `k < innerFreq`); finally read the array off in
index order (holes read back as `[]`, the unreachable counterpart of
`undefined`).  The per-matrix loop body is named `cartesianPass`. -/
def cartesianPass {A : Type} [Inhabited A] (matrices : List (List A))
    (acc : JSArr A) (i : Nat) : JSArr A :=
  let mi := matrices.getD i []
  let innerFreq := ((matrices.drop (i + 1)).map List.length).foldl (· * ·) 1
  let outerFreq := ((matrices.take i).map List.length).foldl (· * ·) 1
  (List.range outerFreq).foldl (fun acc h =>
    (List.range mi.length).foldl (fun acc j =>
      (List.range innerFreq).foldl (fun acc k =>
        jsWrite acc (j * innerFreq + k + h * innerFreq * mi.length) (mi.getD j default)
      ) acc) acc) acc

def cartesianProduct {A : Type} [Inhabited A] (params : List (List A)) : List (List A) :=
  let matrices := params
  let fin := (List.range matrices.length).foldl (cartesianPass matrices) ⟨0, fun _ => none⟩
  (List.range fin.size).map (fun x => (fin.data x).getD [])

/-! ### `calculateTruthTable` -/

/-- Embedding of `logic.split(',')`. -/
def splitComma : List Char → List (List Char)
  | [] => [[]]
  | c :: rest =>
    if c = ',' then [] :: splitComma rest
    else
      match splitComma rest with
      | h :: t => (c :: h) :: t
      | [] => [[c]]

/-- Embedding of `codes.join(',')`. -/
def joinComma (ls : List (List Char)) : List Char :=
  match ls with
  | [] => []
  | [l] => l
  | l :: rest => l ++ ',' :: joinComma rest

/-- Helper of `premMatches`: `acc` is the reversed run of premise
characters currently being collected. -/
def premMatchesAux : List Char → List Char → List (List Char)
  | [], acc => if acc = [] then [] else [acc.reverse]
  | c :: rest, acc =>
    if premChar c then premMatchesAux rest (c :: acc)
    else if acc = [] then premMatchesAux rest []
    else acc.reverse :: premMatchesAux rest []

/-- All matches of `regularExpressions.premises` (`[^\W\s01]+`, `g` flag):
the maximal runs of premise characters, in order. -/
def premMatches (s : List Char) : List (List Char) :=
  premMatchesAux s []

/-- Helper of `firstDedup` carrying the set of elements already seen. -/
def firstDedupAux {A : Type} [DecidableEq A] : List A → List A → List A
  | [], _ => []
  | a :: rest, seen =>
    if seen.contains a then firstDedupAux rest seen
    else a :: firstDedupAux rest (a :: seen)

/-- Deduplication keeping first occurrences, as `[...new Set(xs)]` does. -/
def firstDedup {A : Type} [DecidableEq A] (l : List A) : List A :=
  firstDedupAux l []

/-- Matcher of the per-premise substitution regex
`new RegExp('\\b(' + premise + ')\\b', 'gi')` with the row's boolean as
replacement: a case-insensitive occurrence of the premise delimited by word
boundaries. -/
def substMatcher (v : List Char) (val : Bool) : Matcher :=
  fun prev s =>
    let boundaryL : Bool :=
      match prev with
      | none => true
      | some c => !wordChar c
    let afterOk : Bool :=
      match s.drop v.length with
      | [] => true
      | c :: _ => !wordChar c
    if boundaryL ∧ v ≠ [] ∧ (s.take v.length).map lcAscii = v.map lcAscii ∧ afterOk then
      some (v.length,
        if val then 't' :: 'r' :: 'u' :: 'e' :: [] else 'f' :: 'a' :: 'l' :: 's' :: 'e' :: [])
    else none

/-- One `rowCode.replaceAll(new RegExp('\\b(premise)\\b', 'gi'), value)`
pass. -/
def substVar (v : List Char) (val : Bool) (s : List Char) : List Char :=
  replaceAllRA (substMatcher v val) s

/-- The inner premise loop of `calculateTruthTable`: for each premise index
`j`, replace the premise in every code by `row[j]`. -/
def substAllCodes (premises : List (List Char)) (row : List Bool)
    (codes : List (List Char)) : List (List Char) :=
  (List.range premises.length).foldl
    (fun cs j => cs.map (substVar (premises.getD j []) (row.getD j false))) codes

/-- The `rowCodes.forEach(rowCode => … eval(rowCode) …)` loop: evaluate the
row's codes in statement order; the first failure throws with the offending
fully-substituted code attached (`err.rowCode`). -/
def evalRow : List (List Char) → Except (List Char) (List JSVal)
  | [] => .ok []
  | rc :: rest =>
    match evalCodeL rc with
    | some v => (evalRow rest).map (v :: ·)
    | none => .error rc

/-- The outer row loop of `calculateTruthTable`: process the Cartesian rows
in order, appending each row's evaluation results to its assignment values;
a thrown evaluation error aborts everything. -/
def buildRows (premises : List (List Char)) (codes : List (List Char)) :
    List (List Bool) → Except (List Char) (List (List JSVal))
  | [] => .ok []
  | row :: rest =>
    match evalRow (substAllCodes premises row codes) with
    | .error rc => .error rc
    | .ok results =>
      match buildRows premises codes rest with
      | .error rc => .error rc
      | .ok rows => .ok ((row.map JSVal.bool ++ results) :: rows)

/-- The truth table: header row (premises then raw statements) and body rows
(assignment booleans then one evaluation result per statement).  The source
returns these as one heterogeneous array `[header, ...rows]`; the embedding
separates the string header from the value rows. -/
structure TruthTable where
  header : List String
  rows : List (List JSVal)
deriving DecidableEq, Repr

/-- Statements of an input: `logic.split(',')`. -/
def ctLogics (s : String) : List (List Char) :=
  splitComma s.data

/-- Compiled codes of an input: `logics.map(logic => parse(logic))`. -/
def ctCodes (s : String) : List (List Char) :=
  (ctLogics s).map parseL

/-- Premise order of an input:
`[...new Set(codes.join(',').match(regularExpressions.premises))]` (a null
`match` result spreads to the empty list). -/
def ctPremises (s : String) : List (List Char) :=
  firstDedup (premMatches (joinComma (ctCodes s)))

/-- Assignment rows of an input:
`cartesianProduct(premiseOrder.map(() => [true, false]))`. -/
def ctCart (s : String) : List (List Bool) :=
  cartesianProduct ((ctPremises s).map (fun _ => [true, false]))

/-- The fully-substituted row code of statement `j` at Cartesian row `i`. -/
def ctRowCode (s : String) (i j : Nat) : List Char :=
  (substAllCodes (ctPremises s) ((ctCart s).getD i []) (ctCodes s)).getD j []

/-- Embedding of `calculateTruthTable(logic)`: split, compile, extract
premises, enumerate assignments, substitute and evaluate each row; an
evaluation error aborts the whole computation carrying the offending
fully-substituted code. -/
def calculateTruthTable (logic : String) : Except String TruthTable :=
  match buildRows (ctPremises logic) (ctCodes logic) (ctCart logic) with
  | .error rc => .error ⟨rc⟩
  | .ok rows => .ok ⟨((ctPremises logic) ++ (ctLogics logic)).map (fun l => ⟨l⟩), rows⟩



/-! ### Helper definitions used by theorem statements -/

/-- Substring test on character lists. -/
def hasSub (pat : List Char) : List Char → Bool
  | [] => pat.isPrefixOf []
  | c :: rest => pat.isPrefixOf (c :: rest) ∨ hasSub pat rest

/-- The JavaScript source text of a boolean, as the substitution inserts it. -/
def boolLit (b : Bool) : String :=
  if b then "true" else "false"

/-- A fully-substituted instance of the shape `p && q == r`. -/
def codeAndEq (p q r : Bool) : String :=
  boolLit p ++ " && " ++ boolLit q ++ " == " ++ boolLit r

/-- A fully-substituted instance of the shape `p || q ^ r`. -/
def codeOrXor (p q r : Bool) : String :=
  boolLit p ++ " || " ++ boolLit q ++ " ^ " ++ boolLit r


/-- The rows of the assignment enumerator on `n` variables (each matrix is
`[true, false]`), as `calculateTruthTable` builds them. -/
def cpRows (n : Nat) : List (List Bool) :=
  cartesianProduct (List.replicate n [true, false])

/-- The expected row at index `x`: variable `i` is true iff
`(x / 2^(n-1-i)) mod 2 = 0`. -/
def cpRow (n x : Nat) : List Bool :=
  (List.range n).map (fun i => decide (x / 2 ^ (n - 1 - i) % 2 = 0))

/-- Binary encoding of a row, most significant variable first, with `true`
as bit value 0: the unique index at which `cpRow` produces the row. -/
def encodeRow : List Bool → Nat
  | [] => 0
  | b :: rest => (if b then 0 else 1) * 2 ^ rest.length + encodeRow rest

/-! ### Infrastructure for the idempotence analysis of `prettyPrint` -/

/-- No-match predicate: the matcher finds nothing at any position of the
string, walking with the actual previous character. -/
def NM (m : Matcher) : Option Char → List Char → Prop
  | _, [] => True
  | prev, c :: rest => m prev (c :: rest) = none ∧ NM m (some c) rest

/-- Decomposition of a replaceAll scan: the output is built from kept
characters and whole replacements, with the previous-character context
threaded exactly as `scanRA` threads it. -/
inductive Chunks (m : Matcher) : Option Char → List Char → List Char → Prop where
  | nil (prev : Option Char) : Chunks m prev [] []
  | keep {prev : Option Char} {c : Char} {rest out : List Char} :
      m prev (c :: rest) = none → Chunks m (some c) rest out →
      Chunks m prev (c :: rest) (c :: out)
  | repl {prev : Option Char} {s out r : List Char} {n : Nat} :
      m prev s = some (n, r) → 1 ≤ n → n ≤ s.length →
      Chunks m (some (s.getD (n - 1) ' ')) (s.drop n) out →
      Chunks m prev s (r ++ out)

/-- A matcher that always consumes between one character and the whole
remaining string. -/
def Consumes (m : Matcher) : Prop :=
  ∀ prev s n r, m prev s = some (n, r) → 1 ≤ n ∧ n ≤ s.length

/-- Splitting on spaces (the word structure the boundary-anchored operator
regexes see). -/
def splitSp : List Char → List (List Char)
  | [] => [[]]
  | c :: rest =>
    if c = ' ' then [] :: splitSp rest
    else
      match splitSp rest with
      | h :: t => (c :: h) :: t
      | [] => [[c]]

/-- The first space-delimited word. -/
def firstW (s : List Char) : List Char := s.takeWhile (· ≠ ' ')

/-- Everything after the first space (empty if there is none). -/
def afterFW (s : List Char) : List Char := (s.dropWhile (· ≠ ' ')).drop 1

/-- A word entirely consumable as a token run: exactly the words on which a
boundary-anchored token-run regex matches. -/
def WordTok (step : List Char → Option Nat) (w : List Char) : Prop :=
  w ≠ [] ∧ runLen step (w.length + 1) w = w.length

/-- Tokens are nonempty and within bounds. -/
def StepBound (step : List Char → Option Nat) : Prop :=
  ∀ s n, step s = some n → 1 ≤ n ∧ n ≤ s.length

/-- Token characters lie in the class `cl`. -/
def StepChars (step : List Char → Option Nat) (cl : List Char) : Prop :=
  ∀ s n, step s = some n → ∀ i, i < n → s.getD i ' ' ∈ cl

/-- A token is determined by the characters it consumes: replacing everything
after the consumed span leaves the token intact. -/
def StepFixed (step : List Char → Option Nat) : Prop :=
  ∀ s n, step s = some n → ∀ t, step (s.take n ++ t) = some n

/-- The last character of any token lies in the class `E`. -/
def StepEnd (step : List Char → Option Nat) (E : List Char) : Prop :=
  ∀ s n, step s = some n → s.getD (n - 1) ' ' ∈ E

/-- All words of a string fail the given token-run test: on such a string the
corresponding space-anchored run regex can never match. -/
def WSafe (step : List Char → Option Nat) (s : List Char) : Prop :=
  ∀ w ∈ splitSp s, ¬ WordTok step w

/-- A word at which no `not`-token can start (the head alternatives of
`regularExpressions.not` all fail). -/
def NotSafe (w : List Char) : Prop :=
  ¬ (['n', 'o', 't'].isPrefixOf w) ∧ ¬ (['!'].isPrefixOf w) ∧
  ¬ (['Â', '¬'].isPrefixOf w)

/-- All words of a string are `not`-safe. -/
def NSafe (s : List Char) : Prop :=
  ∀ w ∈ splitSp s, NotSafe w

deriving instance DecidableEq for Except

end Logic
namespace Logic

/-! ## Claims -/

/-- C1 (counterexample): for the 0-free-variable input "T and F" the
embedded `calculateTruthTable` returns a table with zero body rows, not the
claimed single row — `cartesianProduct([])` is empty, so the row loop never
runs. -/
theorem C1_counterexample :
    (calculateTruthTable "T and F" = .ok ⟨["T and F"], []⟩) ∧
    Except.map (fun t => t.rows.length) (calculateTruthTable "T and F") ≠ .ok 1 := by
  constructor
  · rfl
  · have h : Except.map (fun (t : TruthTable) => t.rows.length)
        (calculateTruthTable "T and F") = .ok 0 := rfl
    rw [h]; simp

/-- C1 (amended): for every input whose compiled expressions contain no free
variables, `calculateTruthTable` returns the header row only — the Cartesian
product over the empty variable list is empty, so zero body rows are
produced and nothing is evaluated. -/
theorem C1_amended_zero_rows (s : String) (h : ctPremises s = []) :
    calculateTruthTable s = .ok ⟨(ctLogics s).map (fun l => ⟨l⟩), []⟩ := by
  have hc : ctCart s = [] := by rw [ctCart, h]; rfl
  rw [calculateTruthTable, hc, h]
  rfl

/-- C1 (witness for the amended theorem): "T and F" compiles to "1 && 0",
which has no free variables, and yields the header-only table. -/
theorem C1_amended_zero_rows_witness :
    ctPremises "T and F" = [] ∧
    calculateTruthTable "T and F" = .ok ⟨["T and F"], []⟩ :=
  ⟨rfl, C1_amended_zero_rows "T and F" rfl⟩

/-- C3: the input "p and q" yields variables [p, q] in that order and
exactly the four rows (T,T)→T, (T,F)→F, (F,T)→F, (F,F)→F. -/
theorem C3_p_and_q :
    calculateTruthTable "p and q" =
      .ok ⟨["p", "q", "p and q"],
        [[.bool true, .bool true, .bool true],
         [.bool true, .bool false, .bool false],
         [.bool false, .bool true, .bool false],
         [.bool false, .bool false, .bool false]]⟩ := by
  rfl

/-- C4 (counterexample): "a then b then c" does not compile with every
implication marker eliminated: only the leftmost marker is rewritten, the
compiled expression still contains the literal "then" (which then becomes a
free variable), and evaluating the statement fails rather than behaving like
a → (b → c). -/
theorem C4_counterexample :
    (parse "a then b then c" = "!(a) || (b then c)") ∧
    hasSub ('t' :: 'h' :: 'e' :: 'n' :: []) (parse "a then b then c").data = true ∧
    calculateTruthTable "a then b then c" = .error "!(true) || (true true true)" := by
  refine ⟨rfl, rfl, ?_⟩
  rfl

/-- C4 (amended): the `thenWrap` rewrite eliminates only the leftmost
implication marker; its greedy right-hand capture keeps everything after the
marker verbatim, so "a then b then c" compiles to "!(a) || (b then c)" (the
inner marker survives as literal text), while a single implication
"a then b" compiles to "!(a) || (b)". -/
theorem C4_leftmost_only :
    parse "a then b then c" = "!(a) || (b then c)" ∧
    parse "a then b" = "!(a) || (b)" ∧
    parse "a -> b -> c" = "!(a) || (b -> c)" := by
  exact ⟨rfl, rfl, rfl⟩

/-- C5 (counterexample): the word-form operator spellings are matched
case-sensitively, not case-insensitively: "p AND q" is left untranslated
while "p and q" becomes "p && q", so the two statements do not compile to
the same canonical tokens. -/
theorem C5_counterexample :
    (parse "p AND q" = "p AND q") ∧
    (parse "p and q" = "p && q") ∧
    parse "p AND q" ≠ parse "p and q" := by
  refine ⟨rfl, rfl, ?_⟩
  decide

/-- C5 (amended): word forms are matched case-sensitively — the exact
lowercase spellings (and the single uppercase literals T, F) translate,
while uppercase or mixed-case word forms pass through untranslated (and so
become variables). -/
theorem C5_case_sensitive :
    parse "p and q" = "p && q" ∧ parse "p AND q" = "p AND q" ∧
    parse "p or q" = "p || q" ∧ parse "p Or q" = "p Or q" ∧
    parse "not p" = "!p" ∧ parse "NOT p" = "NOT p" ∧
    parse "p xor q" = "p ^ q" ∧ parse "p XOR q" = "p XOR q" ∧
    parse "true" = "1" ∧ parse "True" = "True" ∧
    parse "false" = "0" ∧ parse "FALSE" = "FALSE" ∧
    parse "T" = "1" ∧ parse "F" = "0" := by
  exact ⟨rfl, rfl, rfl, rfl, rfl, rfl, rfl, rfl, rfl, rfl, rfl, rfl, rfl, rfl⟩

/-- C6 (counterexample): after rewriting an outermost group the scan does
not resume immediately after the replacement: with the rewrite function
constantly "1", the second group of "(p) (q)" is never rewritten. -/
theorem C6_counterexample :
    (replaceParanthesis "(p) (q)" (fun _ => "1") = "(1) (q)") ∧
    replaceParanthesis "(p) (q)" (fun _ => "1") ≠ "(1) (1)" := by
  refine ⟨rfl, ?_⟩
  decide

/-- C6 (amended): after splicing a rewritten interior the scan resumes two
characters past the position just after the group's closing parenthesis, so
an outermost group whose opening parenthesis lies within those two skipped
characters is missed, while groups opening at least three characters after
the previous closing parenthesis are still rewritten. -/
theorem C6_skips_two_chars :
    (replaceParanthesis "(p)(q)" (fun _ => "1") = "(1)(q)") ∧
    (replaceParanthesis "(p) (q)" (fun _ => "1") = "(1) (q)") ∧
    (replaceParanthesis "(p) x (q)" (fun _ => "1") = "(1) x (1)") ∧
    (replaceParanthesis "(p)abc(q)(r)" (fun _ => "1") = "(1)abc(1)(r)") := by
  exact ⟨rfl, rfl, rfl, rfl⟩

/-- C7 (counterexample): evaluation does not use the claimed precedence.
Under the claim "p && q == r" would evaluate as (p && q) == r, which at
p = q = r = false is true; the evaluator (JavaScript `eval`) parses it as
p && (q == r) and returns false. -/
theorem C7_counterexample :
    (evalCode "false && false == false" = some (.bool false)) ∧
    evalCode "false && false == false" ≠ some (.bool ((false && false) == false)) := by
  refine ⟨rfl, ?_⟩
  decide

/-- C7 (amended): the evaluator uses JavaScript precedence — `!` highest,
then `==`, then `&`, `^`, `|`, then `&&`, then `||` — so `==` and `^` bind
tighter than `&&`/`||`: a fully-substituted "p && q == r" evaluates as
p && (q == r) (yielding a boolean), and "p || q ^ r" as p || (q ^ r)
(yielding boolean true when p holds, else the number q xor r). -/
theorem C7_js_precedence :
    ∀ p q r : Bool,
      evalCode (codeAndEq p q r) = some (.bool (p && (q == r))) ∧
      evalCode (codeOrXor p q r) =
        some (if p then JSVal.bool true else .num (if q.xor r then 1 else 0)) := by
  decide

/-- C10 (counterexample): for the input "True, TRUE" the two variables
differ only in letter case, yet the result columns do not agree across the
two assignments that differ only in the later variable TRUE: substituting
the earlier variable "True" inserts the literal text "true"/"false", and
the later case-insensitive substitution re-captures an inserted "true", so
rows (T,T) and (T,F) produce results (T,T) and (F,F) respectively. -/
theorem C10_counterexample :
    (calculateTruthTable "True, TRUE" =
      .ok ⟨["True", "TRUE", "True", " TRUE"],
        [[.bool true, .bool true, .bool true, .bool true],
         [.bool true, .bool false, .bool false, .bool false],
         [.bool false, .bool true, .bool false, .bool false],
         [.bool false, .bool false, .bool false, .bool false]]⟩) ∧
    Except.map (fun t => (((t.rows.getD 0 []).take 2, (t.rows.getD 0 []).drop 2),
                          ((t.rows.getD 1 []).take 2, (t.rows.getD 1 []).drop 2)))
        (calculateTruthTable "True, TRUE") =
      .ok (([.bool true, .bool true], [.bool true, .bool true]),
           ([.bool true, .bool false], [.bool false, .bool false])) ∧
    ([JSVal.bool true, JSVal.bool true] : List JSVal) ≠ [.bool false, .bool false] := by
  refine ⟨rfl, rfl, ?_⟩
  decide

/-- C10 (amended): when the two case-variant variables are not themselves
case-variants of the inserted literals "true"/"false", the earlier
variable's case-insensitive whole-word substitution consumes every
occurrence of the later variable, so the results depend only on the earlier
variable and rows differing only in the later variable have identical
result columns — as for "P and p", whose result column follows P alone
(rows (T,T) and (T,F) both yield T; rows (F,T) and (F,F) both yield F). -/
theorem C10_shadowing :
    (calculateTruthTable "P and p" =
      .ok ⟨["P", "p", "P and p"],
        [[.bool true, .bool true, .bool true],
         [.bool true, .bool false, .bool true],
         [.bool false, .bool true, .bool false],
         [.bool false, .bool false, .bool false]]⟩) ∧
    Except.map (fun t => ((t.rows.getD 0 []).drop 2, (t.rows.getD 1 []).drop 2))
        (calculateTruthTable "P and p") = .ok ([.bool true], [.bool true]) ∧
    Except.map (fun t => ((t.rows.getD 2 []).drop 2, (t.rows.getD 3 []).drop 2))
        (calculateTruthTable "P and p") = .ok ([.bool false], [.bool false]) := by
  exact ⟨rfl, rfl, rfl⟩

end Logic

namespace Logic

/-! ## Lemmas about `cartesianProduct` on `n` binary matrices -/

theorem jsWrite_data {A : Type} (a : JSArr A) (x : Nat) (v : A) (y : Nat) :
    (jsWrite a x v).data y =
      if y = x then some ((a.data x).getD [] ++ [v]) else a.data y := by
  by_cases h : y = x <;> simp [jsWrite, h]
  cases a.data x <;> simp

theorem jsWrite_size {A : Type} (a : JSArr A) (x : Nat) (v : A) :
    (jsWrite a x v).size = max a.size (x + 1) := rfl

theorem foldl_mul_replicate (m c : Nat) :
    ((List.replicate m 2).foldl (· * ·) c) = c * 2 ^ m := by
  induction m generalizing c with
  | zero => simp
  | succ k ih =>
    rw [List.replicate_succ, List.foldl_cons, ih]
    ring

theorem kfold_data (v : Bool) (I base : Nat) (a : JSArr Bool) (y : Nat) :
    (((List.range I).foldl (fun acc k => jsWrite acc (base + k) v) a)).data y =
      if base ≤ y ∧ y < base + I then some ((a.data y).getD [] ++ [v])
      else a.data y := by
  induction I generalizing y with
  | zero =>
    simp only [List.range_zero, List.foldl_nil]
    rw [if_neg (by omega)]
  | succ k ih =>
    rw [List.range_succ, List.foldl_append, List.foldl_cons, List.foldl_nil,
      jsWrite_data]
    simp only [ih]
    by_cases hy : y = base + k
    · subst hy
      rw [if_pos rfl, if_neg (by omega), if_pos (by omega)]
    · rw [if_neg hy]
      by_cases h1 : base ≤ y ∧ y < base + k
      · rw [if_pos h1, if_pos (by omega)]
      · rw [if_neg h1, if_neg (by omega)]

theorem kfold_size (v : Bool) (I base : Nat) (a : JSArr Bool) :
    (((List.range I).foldl (fun acc k => jsWrite acc (base + k) v) a)).size =
      if I = 0 then a.size else max a.size (base + I) := by
  induction I with
  | zero => simp
  | succ k ih =>
    rw [List.range_succ, List.foldl_append, List.foldl_cons, List.foldl_nil,
      jsWrite_size, ih]
    by_cases hk : k = 0
    · subst hk
      simp
    · rw [if_neg hk, if_neg (by omega)]
      omega


theorem hblock_data (I h : Nat) (hI : 1 ≤ I) (a : JSArr Bool) (y : Nat) :
    ((List.range 2).foldl (fun acc j =>
        (List.range I).foldl (fun acc k =>
          jsWrite acc (j * I + k + h * I * 2)
            ((([true, false] : List Bool)).getD j default)) acc) a).data y =
      if 2 * h * I ≤ y ∧ y < 2 * h * I + 2 * I then
        some ((a.data y).getD [] ++ [decide (y / I % 2 = 0)])
      else a.data y := by
  have hI0 : 0 < I := hI
  have idx0 : ∀ k : Nat, 0 * I + k + h * I * 2 = 2 * h * I + k := by intro k; ring
  have idx1 : ∀ k : Nat, 1 * I + k + h * I * 2 = (2 * h * I + I) + k := by intro k; ring
  rw [show List.range 2 = [0, 1] from rfl, List.foldl_cons, List.foldl_cons,
    List.foldl_nil]
  simp only [idx0, idx1,
    show (([true, false] : List Bool)).getD 0 default = true from rfl,
    show (([true, false] : List Bool)).getD 1 default = false from rfl]
  rw [kfold_data, kfold_data]
  by_cases h0 : 2 * h * I ≤ y ∧ y < 2 * h * I + I
  · rw [if_pos h0, if_neg (by omega), if_pos (by omega)]
    obtain ⟨r, hrlt, rfl⟩ : ∃ r, r < I ∧ y = 2 * h * I + r :=
      ⟨y - 2 * h * I, by omega, by omega⟩
    have hd : (2 * h * I + r) / I % 2 = 0 := by
      rw [show (2 : Nat) * h * I + r = r + (2 * h) * I from by ring,
        Nat.add_mul_div_right _ _ hI0, Nat.div_eq_of_lt hrlt]
      omega
    rw [hd]
    simp
  · rw [if_neg h0]
    by_cases h1 : 2 * h * I + I ≤ y ∧ y < 2 * h * I + I + I
    · rw [if_pos h1, if_pos (by omega)]
      obtain ⟨r, hrlt, rfl⟩ : ∃ r, r < I ∧ y = 2 * h * I + I + r :=
        ⟨y - (2 * h * I + I), by omega, by omega⟩
      have hd : (2 * h * I + I + r) / I % 2 = 1 := by
        rw [show (2 : Nat) * h * I + I + r = r + (2 * h + 1) * I from by ring,
          Nat.add_mul_div_right _ _ hI0, Nat.div_eq_of_lt hrlt]
        omega
      rw [hd]
      simp
    · rw [if_neg h1, if_neg (by omega)]

theorem hblock_size (I h : Nat) (hI : 1 ≤ I) (a : JSArr Bool) :
    ((List.range 2).foldl (fun acc j =>
        (List.range I).foldl (fun acc k =>
          jsWrite acc (j * I + k + h * I * 2)
            ((([true, false] : List Bool)).getD j default)) acc) a).size =
      max a.size (2 * h * I + 2 * I) := by
  have idx0 : ∀ k : Nat, 0 * I + k + h * I * 2 = 2 * h * I + k := by intro k; ring
  have idx1 : ∀ k : Nat, 1 * I + k + h * I * 2 = (2 * h * I + I) + k := by intro k; ring
  rw [show List.range 2 = [0, 1] from rfl, List.foldl_cons, List.foldl_cons,
    List.foldl_nil]
  simp only [idx0, idx1,
    show (([true, false] : List Bool)).getD 0 default = true from rfl,
    show (([true, false] : List Bool)).getD 1 default = false from rfl]
  rw [kfold_size, kfold_size, if_neg (by omega), if_neg (by omega)]
  omega

theorem hfold_data (I O : Nat) (hI : 1 ≤ I) (a : JSArr Bool) (y : Nat) :
    ((List.range O).foldl (fun acc h =>
      (List.range 2).foldl (fun acc j =>
        (List.range I).foldl (fun acc k =>
          jsWrite acc (j * I + k + h * I * 2)
            ((([true, false] : List Bool)).getD j default)) acc) acc) a).data y =
      if y < O * 2 * I then some ((a.data y).getD [] ++ [decide (y / I % 2 = 0)])
      else a.data y := by
  induction O generalizing y with
  | zero =>
    simp only [List.range_zero, List.foldl_nil]
    rw [if_neg (by omega)]
  | succ O ih =>
    rw [show List.range (O + 1) = List.range O ++ [O] from by rw [List.range_succ],
      List.foldl_append, List.foldl_cons, List.foldl_nil, hblock_data _ _ hI]
    simp only [ih]
    have e1 : (O + 1) * 2 * I = O * 2 * I + 2 * I := by ring
    have e2 : 2 * O * I = O * 2 * I := by ring
    rw [e1, e2]
    by_cases h0 : O * 2 * I ≤ y ∧ y < O * 2 * I + 2 * I
    · rw [if_pos h0, if_neg (by omega), if_pos (by omega)]
    · rw [if_neg h0]
      by_cases h1 : y < O * 2 * I
      · rw [if_pos h1, if_pos (by omega)]
      · rw [if_neg h1, if_neg (by omega)]

theorem hfold_size (I O : Nat) (hI : 1 ≤ I) (a : JSArr Bool) :
    ((List.range O).foldl (fun acc h =>
      (List.range 2).foldl (fun acc j =>
        (List.range I).foldl (fun acc k =>
          jsWrite acc (j * I + k + h * I * 2)
            ((([true, false] : List Bool)).getD j default)) acc) acc) a).size =
      if O = 0 then a.size else max a.size (O * 2 * I) := by
  induction O with
  | zero => simp
  | succ O ih =>
    rw [show List.range (O + 1) = List.range O ++ [O] from by rw [List.range_succ],
      List.foldl_append, List.foldl_cons, List.foldl_nil, hblock_size _ _ hI, ih]
    have e1 : (O + 1) * 2 * I = O * 2 * I + 2 * I := by ring
    have e2 : 2 * O * I = O * 2 * I := by ring
    rw [e1, e2]
    by_cases hO : O = 0
    · subst hO
      simp
    · rw [if_neg hO, if_neg (by omega)]
      omega


theorem getD_map_range {A : Type} (f : Nat → A) (k x : Nat) (d : A) (hx : x < k) :
    ((List.range k).map f).getD x d = f x := by
  rw [List.getD_eq_getElem _ _ (by simpa using hx)]
  simp

theorem replicate_getD_tf (n i : Nat) (hi : i < n) :
    (List.replicate n ([true, false] : List Bool)).getD i [] = [true, false] := by
  rw [List.getD_eq_getElem _ _ (by simpa using hi)]
  simp

theorem innerFreq_replicate (n i : Nat) :
    ((((List.replicate n ([true, false] : List Bool)).drop (i + 1)).map
      List.length).foldl (· * ·) 1) = 2 ^ (n - 1 - i) := by
  rw [List.drop_replicate, List.map_replicate,
    show (([true, false] : List Bool)).length = 2 from rfl, foldl_mul_replicate]
  have : n - (i + 1) = n - 1 - i := by omega
  rw [this, one_mul]

theorem outerFreq_replicate (n i : Nat) (hi : i < n) :
    ((((List.replicate n ([true, false] : List Bool)).take i).map
      List.length).foldl (· * ·) 1) = 2 ^ i := by
  rw [List.take_replicate, List.map_replicate,
    show (([true, false] : List Bool)).length = 2 from rfl,
    Nat.min_eq_left (by omega), foldl_mul_replicate, one_mul]

theorem cartesianPass_replicate (n i : Nat) (hi : i < n) (acc : JSArr Bool) :
    cartesianPass (List.replicate n ([true, false] : List Bool)) acc i =
      (List.range (2 ^ i)).foldl (fun acc h =>
        (List.range 2).foldl (fun acc j =>
          (List.range (2 ^ (n - 1 - i))).foldl (fun acc k =>
            jsWrite acc (j * 2 ^ (n - 1 - i) + k + h * 2 ^ (n - 1 - i) * 2)
              ((([true, false] : List Bool)).getD j default)) acc) acc) acc := by
  unfold cartesianPass
  simp only [replicate_getD_tf n i hi, innerFreq_replicate,
    outerFreq_replicate n i hi,
    show (([true, false] : List Bool)).length = 2 from rfl]

theorem cpPasses_data (n m : Nat) (y : Nat) :
    m ≤ n →
    ((List.range m).foldl
        (cartesianPass (List.replicate n ([true, false] : List Bool)))
        ⟨0, fun _ => none⟩).data y =
      if y < 2 ^ n ∧ 0 < m then
        some ((List.range m).map (fun i => decide (y / 2 ^ (n - 1 - i) % 2 = 0)))
      else none := by
  induction m generalizing y with
  | zero =>
    intro _
    simp
  | succ m ih =>
    intro hm
    rw [show List.range (m + 1) = List.range m ++ [m] from by rw [List.range_succ],
      List.foldl_append, List.foldl_cons, List.foldl_nil,
      cartesianPass_replicate n m (by omega),
      hfold_data _ _ (Nat.pos_pow_of_pos _ (by omega))]
    have hb : (2 : Nat) ^ m * 2 * 2 ^ (n - 1 - m) = 2 ^ n := by
      rw [← pow_succ, ← pow_add]
      congr 1
      omega
    rw [hb]
    by_cases hy : y < 2 ^ n
    · rw [if_pos hy, if_pos ⟨hy, by omega⟩]
      rw [ih y (by omega), List.map_append]
      rcases Nat.eq_zero_or_pos m with hm0 | hm0
      · subst hm0
        rw [if_neg (by omega)]
        simp
      · rw [if_pos ⟨hy, hm0⟩]
        simp
    · rw [if_neg hy, if_neg (by omega), ih y (by omega), if_neg (by omega)]

theorem cpPasses_size (n m : Nat) :
    m ≤ n →
    ((List.range m).foldl
        (cartesianPass (List.replicate n ([true, false] : List Bool)))
        ⟨0, fun _ => none⟩).size =
      if m = 0 then 0 else 2 ^ n := by
  induction m with
  | zero =>
    intro _
    simp
  | succ m ih =>
    intro hm
    rw [show List.range (m + 1) = List.range m ++ [m] from by rw [List.range_succ],
      List.foldl_append, List.foldl_cons, List.foldl_nil,
      cartesianPass_replicate n m (by omega),
      hfold_size _ _ (Nat.pos_pow_of_pos _ (by omega)), ih (by omega)]
    have hb : (2 : Nat) ^ m * 2 * 2 ^ (n - 1 - m) = 2 ^ n := by
      rw [← pow_succ, ← pow_add]
      congr 1
      omega
    rw [if_neg (show (2 : Nat) ^ m ≠ 0 by positivity), hb,
      if_neg (show ¬(m + 1 = 0) by omega)]
    rcases Nat.eq_zero_or_pos m with hm0 | hm0
    · subst hm0
      simp
    · rw [if_neg (show ¬(m = 0) by omega)]
      exact Nat.max_self _

theorem cpRows_eq (n : Nat) (hn : 1 ≤ n) :
    cpRows n = (List.range (2 ^ n)).map (fun x => cpRow n x) := by
  unfold cpRows cartesianProduct
  simp only [List.length_replicate]
  rw [cpPasses_size n n (le_refl n), if_neg (by omega)]
  apply List.map_congr_left
  intro x hx
  rw [cpPasses_data n n x (le_refl n),
    if_pos ⟨by simpa using hx, by omega⟩]
  rfl

theorem cpRows_length (n : Nat) (hn : 1 ≤ n) : (cpRows n).length = 2 ^ n := by
  rw [cpRows_eq n hn]
  simp

theorem cpRows_getD (n x : Nat) (hn : 1 ≤ n) (hx : x < 2 ^ n) :
    (cpRows n).getD x [] = cpRow n x := by
  rw [cpRows_eq n hn, getD_map_range _ _ _ _ hx]

theorem encodeRow_lt (v : List Bool) : encodeRow v < 2 ^ v.length := by
  induction v with
  | nil => simp [encodeRow]
  | cons b rest ih =>
    rw [encodeRow, List.length_cons, pow_succ]
    cases b
    · rw [if_neg (by simp), one_mul]
      omega
    · rw [if_pos rfl, zero_mul]
      omega

theorem encodeRow_bits (v : List Bool) (i : Nat) (hi : i < v.length) :
    encodeRow v / 2 ^ (v.length - 1 - i) % 2 = if v.getD i true then 0 else 1 := by
  induction v generalizing i with
  | nil => simp at hi
  | cons b rest ih =>
    have hlt : encodeRow rest < 2 ^ rest.length := encodeRow_lt rest
    match i with
    | 0 =>
      rw [encodeRow,
        show (b :: rest : List Bool).length - 1 - 0 = rest.length from by simp,
        Nat.add_comm,
        Nat.add_mul_div_right _ _ (Nat.pos_pow_of_pos _ (by omega)),
        Nat.div_eq_of_lt hlt]
      by_cases hb : b <;> simp [hb]
    | j + 1 =>
      have hj : j < rest.length := by simpa using hi
      have hpos : 0 < (2 : Nat) ^ (rest.length - 1 - j) :=
        Nat.pos_pow_of_pos _ (by omega)
      have hexp : (b :: rest : List Bool).length - 1 - (j + 1) =
          rest.length - 1 - j := by
        simp only [List.length_cons]
        omega
      have hsplit : (2 : Nat) ^ rest.length =
          2 ^ (rest.length - (rest.length - 1 - j)) * 2 ^ (rest.length - 1 - j) := by
        rw [← pow_add]
        congr 1
        omega
      obtain ⟨e, he⟩ : ∃ e, rest.length - (rest.length - 1 - j) = e + 1 :=
        ⟨rest.length - (rest.length - 1 - j) - 1, by omega⟩
      have key : encodeRow (b :: rest) / 2 ^ (rest.length - 1 - j) % 2 =
          encodeRow rest / 2 ^ (rest.length - 1 - j) % 2 := by
        rw [encodeRow, hsplit, ← mul_assoc, Nat.add_comm,
          Nat.add_mul_div_right _ _ hpos, he, pow_succ, ← mul_assoc,
          Nat.add_mul_mod_self_right]
      rw [hexp, key, ih j hj]
      simp

theorem cpRow_length (n x : Nat) : (cpRow n x).length = n := by
  simp [cpRow]

theorem cpRow_getD (n x i : Nat) (hi : i < n) :
    (cpRow n x).getD i true = decide (x / 2 ^ (n - 1 - i) % 2 = 0) := by
  simp only [cpRow]
  rw [getD_map_range _ _ _ _ hi]

theorem cpRow_encode (v : List Bool) : cpRow v.length (encodeRow v) = v := by
  apply List.ext_getElem (by simp [cpRow])
  intro i h1 h2
  have hi : i < v.length := h2
  have hb := encodeRow_bits v i hi
  simp only [cpRow, List.getElem_map, List.getElem_range]
  have hgd : v.getD i true = v[i] := List.getD_eq_getElem v true hi
  by_cases hv : v[i] = true
  · rw [hgd, if_pos hv] at hb
    rw [hb, hv]
    rfl
  · have hfalse : v[i] = false := by simpa using hv
    rw [hgd, if_neg hv] at hb
    rw [hb, hfalse]
    rfl

theorem cpRow_inj (n x y : Nat) (hx : x < 2 ^ n) (hy : y < 2 ^ n)
    (h : cpRow n x = cpRow n y) : x = y := by
  apply Nat.eq_of_testBit_eq
  intro k
  by_cases hk : k < n
  · have hgd := congrArg (fun l => l.getD (n - 1 - k) true) h
    simp only [cpRow_getD n x (n - 1 - k) (by omega),
      cpRow_getD n y (n - 1 - k) (by omega)] at hgd
    have hkk : n - 1 - (n - 1 - k) = k := by omega
    rw [hkk] at hgd
    have hmx : x / 2 ^ k % 2 < 2 := Nat.mod_lt _ (by omega)
    have hmy : y / 2 ^ k % 2 < 2 := Nat.mod_lt _ (by omega)
    have heq : x / 2 ^ k % 2 = y / 2 ^ k % 2 := by
      have := decide_eq_decide.mp hgd
      omega
    rw [Nat.testBit_to_div_mod, Nat.testBit_to_div_mod, heq]
  · have hle : (2 : Nat) ^ n ≤ 2 ^ k := Nat.pow_le_pow_right (by omega) (by omega)
    rw [Nat.testBit_lt_two_pow (by omega), Nat.testBit_lt_two_pow (by omega)]


/-- C2: for every N ≥ 1, the assignment enumerator
(`cartesianProduct` over N copies of `[true, false]`) produces exactly 2^N
rows; row x gives variable i (0-based) the value
`(x / 2^(N-i-1)) mod 2 = 0` — binary counting with the first variable most
significant — and every boolean assignment of length N appears at exactly
one row index. -/
theorem C2_assignment_enumerator (n : Nat) (hn : 1 ≤ n) :
    (cpRows n).length = 2 ^ n ∧
    (∀ x, x < 2 ^ n → (cpRows n).getD x [] = cpRow n x) ∧
    (∀ v : List Bool, v.length = n →
      ∃ x, x < 2 ^ n ∧ (cpRows n).getD x [] = v ∧
        ∀ y, y < 2 ^ n → (cpRows n).getD y [] = v → y = x) := by
  refine ⟨cpRows_length n hn, fun x hx => cpRows_getD n x hn hx, ?_⟩
  intro v hv
  refine ⟨encodeRow v, ?_, ?_, ?_⟩
  · have := encodeRow_lt v
    rw [hv] at this
    exact this
  · have hlt : encodeRow v < 2 ^ n := by
      have := encodeRow_lt v
      rw [hv] at this
      exact this
    rw [cpRows_getD n _ hn hlt]
    have := cpRow_encode v
    rw [hv] at this
    exact this
  · intro y hy hrow
    have hlt : encodeRow v < 2 ^ n := by
      have := encodeRow_lt v
      rw [hv] at this
      exact this
    have h1 : cpRow n (encodeRow v) = v := by
      have := cpRow_encode v
      rw [hv] at this
      exact this
    apply cpRow_inj n y (encodeRow v) hy hlt
    rw [← cpRows_getD n y hn hy, hrow, h1]

/-- C2 (witness): the enumerator at N = 2 — 1 ≤ 2 holds and the three
conjuncts hold as stated, by applying the theorem at 2. -/
theorem C2_assignment_enumerator_witness :
    1 ≤ 2 ∧
    ((cpRows 2).length = 2 ^ 2 ∧
     (∀ x, x < 2 ^ 2 → (cpRows 2).getD x [] = cpRow 2 x) ∧
     (∀ v : List Bool, v.length = 2 →
       ∃ x, x < 2 ^ 2 ∧ (cpRows 2).getD x [] = v ∧
         ∀ y, y < 2 ^ 2 → (cpRows 2).getD y [] = v → y = x)) :=
  ⟨by decide, C2_assignment_enumerator 2 (by decide)⟩


/-! ## Error propagation of `calculateTruthTable` (claim C8) -/

theorem substAllCodes_length (premises : List (List Char)) (row : List Bool)
    (codes : List (List Char)) :
    (substAllCodes premises row codes).length = codes.length := by
  unfold substAllCodes
  generalize List.range premises.length = l
  induction l generalizing codes with
  | nil => simp
  | cons j rest ih =>
    rw [List.foldl_cons, ih]
    simp

theorem evalRow_error (rcs : List (List Char)) (e : List Char) :
    evalRow rcs = .error e →
    ∃ j, j < rcs.length ∧ e = rcs.getD j [] ∧
      evalCodeL (rcs.getD j []) = none ∧
      ∀ j', j' < j → (evalCodeL (rcs.getD j' [])).isSome := by
  induction rcs with
  | nil =>
    intro h
    simp [evalRow] at h
  | cons rc rest ih =>
    intro h
    rw [evalRow] at h
    cases hrc : evalCodeL rc with
    | some v =>
      rw [hrc] at h
      cases hrest : evalRow rest with
      | ok vs =>
        rw [hrest] at h
        simp [Except.map] at h
      | error e2 =>
        rw [hrest] at h
        simp only [Except.map] at h
        have he : e2 = e := by
          simpa using h
        obtain ⟨j, hj, hej, hnone, hall⟩ := ih (he ▸ hrest)
        refine ⟨j + 1, by simpa using hj, by simpa using hej,
          by simpa using hnone, ?_⟩
        intro j' hj'
        match j' with
        | 0 => simp [hrc]
        | j'' + 1 =>
          have := hall j'' (by omega)
          simpa using this
    | none =>
      rw [hrc] at h
      have he : e = rc := by
        simpa using h.symm
      refine ⟨0, by simp, by simpa using he, by simpa using hrc, ?_⟩
      intro j' hj'
      omega

theorem evalRow_ok (rcs : List (List Char)) (vs : List JSVal) :
    evalRow rcs = .ok vs →
    vs.length = rcs.length ∧
    ∀ j, j < rcs.length → (evalCodeL (rcs.getD j [])).isSome := by
  induction rcs generalizing vs with
  | nil =>
    intro h
    simp [evalRow] at h
    simp [← h]
  | cons rc rest ih =>
    intro h
    rw [evalRow] at h
    cases hrc : evalCodeL rc with
    | some v =>
      rw [hrc] at h
      cases hrest : evalRow rest with
      | ok vs2 =>
        rw [hrest] at h
        simp only [Except.map] at h
        have hv : v :: vs2 = vs := by simpa using h
        obtain ⟨hlen, hall⟩ := ih vs2 hrest
        constructor
        · rw [← hv]
          simpa using hlen
        · intro j hj
          match j with
          | 0 => simp [hrc]
          | j'' + 1 =>
            have := hall j'' (by simpa using hj)
            simpa using this
      | error e2 =>
        rw [hrest] at h
        simp [Except.map] at h
    | none =>
      rw [hrc] at h
      simp at h

theorem buildRows_error (premises codes : List (List Char))
    (cart : List (List Bool)) (e : List Char) :
    buildRows premises codes cart = .error e →
    ∃ i j, i < cart.length ∧ j < codes.length ∧
      e = (substAllCodes premises (cart.getD i []) codes).getD j [] ∧
      evalCodeL ((substAllCodes premises (cart.getD i []) codes).getD j []) = none ∧
      ∀ i' j', i' < cart.length → j' < codes.length →
        (i' < i ∨ (i' = i ∧ j' < j)) →
        (evalCodeL ((substAllCodes premises (cart.getD i' []) codes).getD j' [])).isSome := by
  induction cart with
  | nil =>
    intro h
    simp [buildRows] at h
  | cons row rest ih =>
    intro h
    rw [buildRows] at h
    cases hrow : evalRow (substAllCodes premises row codes) with
    | error rc =>
      rw [hrow] at h
      have he : e = rc := by simpa using h.symm
      obtain ⟨j, hj, hej, hnone, hall⟩ := evalRow_error _ _ (he ▸ hrow)
      rw [substAllCodes_length] at hj
      refine ⟨0, j, by simp, hj, by simpa using hej, by simpa using hnone, ?_⟩
      intro i' j' hi' hj' hlex
      rcases hlex with h1 | ⟨h1, h2⟩
      · omega
      · subst h1
        have := hall j' h2
        simpa using this
    | ok results =>
      rw [hrow] at h
      cases hrest : buildRows premises codes rest with
      | ok rows =>
        rw [hrest] at h
        simp at h
      | error rc =>
        rw [hrest] at h
        have he : e = rc := by simpa using h.symm
        obtain ⟨i, j, hi, hj, hej, hnone, hall⟩ := ih (he ▸ hrest)
        refine ⟨i + 1, j, by simpa using hi, hj, by simpa using hej,
          by simpa using hnone, ?_⟩
        intro i' j' hi' hj' hlex
        match i' with
        | 0 =>
          have hok := evalRow_ok _ _ hrow
          have := hok.2 j' (by rw [substAllCodes_length]; exact hj')
          simpa using this
        | i'' + 1 =>
          have : i'' < i ∨ (i'' = i ∧ j' < j) := by omega
          have := hall i'' j' (by simpa using hi') hj' this
          simpa using this

theorem buildRows_ok (premises codes : List (List Char))
    (cart : List (List Bool)) (rows : List (List JSVal)) :
    buildRows premises codes cart = .ok rows →
    rows.length = cart.length ∧
    ∀ i j, i < cart.length → j < codes.length →
      (evalCodeL ((substAllCodes premises (cart.getD i []) codes).getD j [])).isSome := by
  induction cart generalizing rows with
  | nil =>
    intro h
    simp [buildRows] at h
    simp [← h]
  | cons row rest ih =>
    intro h
    rw [buildRows] at h
    cases hrow : evalRow (substAllCodes premises row codes) with
    | error rc =>
      rw [hrow] at h
      simp at h
    | ok results =>
      rw [hrow] at h
      cases hrest : buildRows premises codes rest with
      | error rc =>
        rw [hrest] at h
        simp at h
      | ok rows2 =>
        rw [hrest] at h
        have hr : (row.map JSVal.bool ++ results) :: rows2 = rows := by simpa using h
        obtain ⟨hlen, hall⟩ := ih rows2 hrest
        constructor
        · rw [← hr]
          simpa using hlen
        · intro i j hi hj
          match i with
          | 0 =>
            have hok := evalRow_ok _ _ hrow
            have := hok.2 j (by rw [substAllCodes_length]; exact hj)
            simpa using this
          | i'' + 1 =>
            have := hall i'' j (by simpa using hi) hj
            simpa using this

/-- C8: evaluation failures abort the whole computation on the first failing
fully-substituted expression, in row-major scan order, and the error carries
precisely that expression's text; on success the table is complete (one body
row per assignment) and every substituted expression evaluated.  Compilation
(`parseL`) and enumeration (`cartesianProduct`) are total functions of the
embedding, so only evaluation can fail. -/
theorem C8_abort_on_first_failure (s : String) :
    (∀ e, calculateTruthTable s = .error e →
      ∃ i j, i < (ctCart s).length ∧ j < (ctCodes s).length ∧
        e.data = ctRowCode s i j ∧ evalCodeL (ctRowCode s i j) = none ∧
        ∀ i' j', i' < (ctCart s).length → j' < (ctCodes s).length →
          (i' < i ∨ (i' = i ∧ j' < j)) →
          (evalCodeL (ctRowCode s i' j')).isSome) ∧
    (∀ t, calculateTruthTable s = .ok t →
      t.rows.length = (ctCart s).length ∧
      ∀ i j, i < (ctCart s).length → j < (ctCodes s).length →
        (evalCodeL (ctRowCode s i j)).isSome) := by
  constructor
  · intro e he
    rw [calculateTruthTable] at he
    cases hb : buildRows (ctPremises s) (ctCodes s) (ctCart s) with
    | ok rows =>
      rw [hb] at he
      simp at he
    | error rc =>
      rw [hb] at he
      have herc : e.data = rc := by
        have : (⟨rc⟩ : String) = e := by simpa using he
        rw [← this]
      obtain ⟨i, j, hi, hj, hej, hnone, hall⟩ := buildRows_error _ _ _ _ hb
      exact ⟨i, j, hi, hj, by rw [herc, hej]; rfl, by simpa [ctRowCode] using hnone,
        fun i' j' h1 h2 h3 => by simpa [ctRowCode] using hall i' j' h1 h2 h3⟩
  · intro t ht
    rw [calculateTruthTable] at ht
    cases hb : buildRows (ctPremises s) (ctCodes s) (ctCart s) with
    | error rc =>
      rw [hb] at ht
      simp at ht
    | ok rows =>
      rw [hb] at ht
      have hrows : t.rows = rows := by
        have : (⟨((ctPremises s) ++ (ctLogics s)).map (fun l => ⟨l⟩), rows⟩ : TruthTable) = t := by
          simpa using ht
        rw [← this]
      obtain ⟨hlen, hall⟩ := buildRows_ok _ _ _ _ hb
      exact ⟨by rw [hrows]; exact hlen,
        fun i j h1 h2 => by simpa [ctRowCode] using hall i j h1 h2⟩

/-- C8 (witness): the input "p =" compiles to "p ==", whose first
substituted row code "true ==" fails to evaluate, and the computation
aborts with exactly that code as the error payload. -/
theorem C8_abort_on_first_failure_witness :
    ∃ i j, i < (ctCart "p =").length ∧ j < (ctCodes "p =").length ∧
      ("true ==" : String).data = ctRowCode "p =" i j ∧
      evalCodeL (ctRowCode "p =" i j) = none ∧
      ∀ i' j', i' < (ctCart "p =").length → j' < (ctCodes "p =").length →
        (i' < i ∨ (i' = i ∧ j' < j)) →
        (evalCodeL (ctRowCode "p =" i' j')).isSome :=
  (C8_abort_on_first_failure "p =").1 "true ==" (by rfl)


end Logic

namespace Logic

/-! ## Basic lemmas for the idempotence analysis -/

theorem NM_scan_id (m : Matcher) :
    ∀ (fuel : Nat) (prev : Option Char) (s : List Char), NM m prev s →
      scanRA m fuel prev s = s := by
  intro fuel
  induction fuel with
  | zero => intro prev s _; rfl
  | succ f ih =>
    intro prev s h
    match s with
    | [] => rfl
    | c :: rest =>
      rw [NM] at h
      rw [scanRA, h.1]
      rw [ih _ _ h.2]

theorem scan_chunks (m : Matcher) (hm : Consumes m) :
    ∀ (fuel : Nat) (prev : Option Char) (s : List Char), s.length < fuel →
      Chunks m prev s (scanRA m fuel prev s) := by
  intro fuel
  induction fuel with
  | zero => intro prev s h; omega
  | succ f ih =>
    intro prev s hlt
    match s with
    | [] => exact Chunks.nil prev
    | c :: rest =>
      rw [scanRA]
      cases hmc : m prev (c :: rest) with
      | none =>
        exact Chunks.keep hmc (ih _ _ (by simp at hlt ⊢; omega))
      | some nr =>
        obtain ⟨n, r⟩ := nr
        obtain ⟨h1, h2⟩ := hm prev (c :: rest) n r hmc
        have hd : (c :: rest).getD (n - 1) c = (c :: rest).getD (n - 1) ' ' := by
          rw [List.getD_eq_getElem _ _ (by simp at h2 ⊢; omega),
            List.getD_eq_getElem _ _ (by simp at h2 ⊢; omega)]
        show Chunks m prev (c :: rest)
          (r ++ scanRA m f (some ((c :: rest).getD (n - 1) c)) ((c :: rest).drop n))
        rw [hd]
        exact Chunks.repl hmc h1 h2
          (ih _ _ (by simp at hlt ⊢; omega))

theorem chunks_replaceAll (m : Matcher) (hm : Consumes m) (s : List Char) :
    Chunks m none s (replaceAllRA m s) :=
  scan_chunks m hm (s.length + 1) none s (by omega)

/-- Prefix pull-back: a pattern avoiding the replacement's first character
that prefixes a scan output already prefixes the input. -/
theorem chunks_prefix_pull {m : Matcher} {prev : Option Char}
    {s out : List Char}
    (hg : ∀ prev2 s2 n r, m prev2 s2 = some (n, r) → r.getD 0 ' ' = '&')
    (h : Chunks m prev s out) :
    ∀ pat : List Char, ('&' ∉ pat) → pat.isPrefixOf out → pat.isPrefixOf s := by
  induction h with
  | nil prev => intro pat _ hp; exact hp
  | keep hmc hch ih =>
    intro pat hamp hp
    match pat with
    | [] => simp
    | p0 :: pat' =>
      rw [List.isPrefixOf_cons₂] at hp ⊢
      simp only [Bool.and_eq_true] at hp ⊢
      exact ⟨hp.1, ih pat' (by simp at hamp; tauto) hp.2⟩
  | repl hmc h1 h2 hch ih =>
    rename_i prev4 s4 out4 r4 n4
    intro pat hamp hp
    match pat with
    | [] => simp
    | p0 :: pat' =>
      exfalso
      have hr2 : r4.getD 0 ' ' = '&' := hg _ _ _ _ hmc
      match r4, hr2, hp with
      | [], hr2, hp => simp at hr2
      | r0 :: r', hr2, hp =>
        have hr0 : r0 = '&' := by simpa using hr2
        rw [List.cons_append, List.isPrefixOf_cons₂] at hp
        simp only [Bool.and_eq_true, beq_iff_eq] at hp
        exact hamp (by rw [hp.1, hr0]; exact List.mem_cons_self _ _)
end Logic

namespace Logic

/-! ## Word-structure toolkit: `splitSp`, `firstW` -/

theorem splitSp_ne_nil (s : List Char) : splitSp s ≠ [] := by
  match s with
  | [] => simp [splitSp]
  | c :: rest =>
    rw [splitSp]
    by_cases hc : c = ' '
    · simp [hc]
    · rw [if_neg hc]
      cases h : splitSp rest <;> simp

theorem firstW_nil : firstW [] = [] := rfl

theorem firstW_cons (c : Char) (rest : List Char) :
    firstW (c :: rest) = if c = ' ' then [] else c :: firstW rest := by
  by_cases hc : c = ' ' <;> simp [firstW, List.takeWhile_cons, hc]

theorem splitSp_head (s : List Char) : ∃ t, splitSp s = firstW s :: t := by
  induction s with
  | nil => exact ⟨[], rfl⟩
  | cons c rest ih =>
    by_cases hc : c = ' '
    · subst hc
      exact ⟨splitSp rest, by rw [splitSp, if_pos rfl, firstW_cons, if_pos rfl]⟩
    · obtain ⟨t, ht⟩ := ih
      refine ⟨t, ?_⟩
      rw [splitSp, if_neg hc, ht, firstW_cons, if_neg hc]

theorem firstW_mem_splitSp (s : List Char) : firstW s ∈ splitSp s := by
  obtain ⟨t, ht⟩ := splitSp_head s
  rw [ht]; exact List.mem_cons_self _ _

theorem splitSp_append_free (r : List Char) (hr : ∀ c ∈ r, c ≠ ' ') :
    ∀ v h t, splitSp v = h :: t → splitSp (r ++ v) = (r ++ h) :: t := by
  induction r with
  | nil => intro v h t hv; simpa using hv
  | cons c r' ih =>
    intro v h t hv
    have hc : c ≠ ' ' := hr c (List.mem_cons_self _ _)
    have hrec := ih (fun x hx => hr x (List.mem_cons_of_mem _ hx)) v h t hv
    rw [List.cons_append, splitSp, if_neg hc, hrec]
    rfl

theorem firstW_append_free (r : List Char) (hr : ∀ c ∈ r, c ≠ ' ') (v : List Char) :
    firstW (r ++ v) = r ++ firstW v := by
  induction r with
  | nil => simp
  | cons c r' ih =>
    have hc : c ≠ ' ' := hr c (List.mem_cons_self _ _)
    rw [List.cons_append, firstW_cons, if_neg hc,
      ih (fun x hx => hr x (List.mem_cons_of_mem _ hx)), List.cons_append]

theorem splitSp_tail_mem (u : List Char) :
    ∀ v w, w ∈ (splitSp v).tail → w ∈ (splitSp (u ++ v)).tail := by
  induction u with
  | nil => intro v w hw; simpa using hw
  | cons c u' ih =>
    intro v w hw
    by_cases hc : c = ' '
    · subst hc
      rw [List.cons_append, splitSp, if_pos rfl, List.tail_cons]
      exact List.mem_of_mem_tail (ih v w hw)
    · rw [List.cons_append, splitSp, if_neg hc]
      cases hsp : splitSp (u' ++ v) with
      | nil => exact absurd hsp (splitSp_ne_nil _)
      | cons h t =>
        have := ih v w hw
        rw [hsp] at this
        simpa using this

/-! ## Token-run toolkit: `runLen`, `dashRun` -/

theorem step_nil_none {step : List Char → Option Nat} (hb : StepBound step) :
    step [] = none := by
  cases hs : step [] with
  | none => rfl
  | some n => obtain ⟨h1, h2⟩ := hb [] n hs; simp at h2; omega

theorem step_space_none {step : List Char → Option Nat} {cl : List Char}
    (hb : StepBound step) (hc : StepChars step cl) (hsp : ' ' ∉ cl)
    (r : List Char) : step (' ' :: r) = none := by
  cases hs : step (' ' :: r) with
  | none => rfl
  | some n =>
    obtain ⟨h1, _⟩ := hb _ n hs
    have := hc _ n hs 0 (by omega)
    simp [List.getD] at this
    exact absurd this hsp

theorem runLen_le {step : List Char → Option Nat} (hb : StepBound step) :
    ∀ f s, runLen step f s ≤ s.length := by
  intro f
  induction f with
  | zero => intro s; simp [runLen]
  | succ f ih =>
    intro s
    cases hs : step s with
    | none => simp [runLen, hs]
    | some n =>
      simp only [runLen, hs]
      obtain ⟨h1, h2⟩ := hb s n hs
      have := ih (s.drop n)
      simp only [List.length_drop] at this
      omega

theorem runLen_fuel {step : List Char → Option Nat} (hb : StepBound step) :
    ∀ f s, s.length < f → runLen step f s = runLen step (s.length + 1) s := by
  intro f
  induction f using Nat.strong_induction_on with
  | _ f ih =>
    intro s hlt
    match f, hlt with
    | f' + 1, hlt =>
      cases hs : step s with
      | none =>
        simp only [runLen, hs]
      | some n =>
        obtain ⟨h1, h2⟩ := hb s n hs
        simp only [runLen, hs]
        have e1 : runLen step f' (s.drop n) = runLen step ((s.drop n).length + 1) (s.drop n) := by
          apply ih f' (by omega)
          simp only [List.length_drop]; omega
        have e2 : runLen step s.length (s.drop n) = runLen step ((s.drop n).length + 1) (s.drop n) := by
          apply ih s.length (by omega)
          simp only [List.length_drop]; omega
        rw [e1, e2]

theorem runLen_chars {step : List Char → Option Nat} {cl : List Char}
    (hb : StepBound step) (hc : StepChars step cl) :
    ∀ f s i, i < runLen step f s → s.getD i ' ' ∈ cl := by
  intro f
  induction f with
  | zero => intro s i hi; simp [runLen] at hi
  | succ f ih =>
    intro s i hi
    cases hs : step s with
    | none => simp [runLen, hs] at hi
    | some n =>
      simp only [runLen, hs] at hi
      obtain ⟨h1, h2⟩ := hb s n hs
      by_cases hin : i < n
      · exact hc s n hs i hin
      · have hrec := ih (s.drop n) (i - n) (by omega)
        rw [List.getD_eq_getElem?_getD, List.getElem?_drop] at hrec
        rw [List.getD_eq_getElem?_getD]
        have : n + (i - n) = i := by omega
        rwa [this] at hrec

theorem runLen_end {step : List Char → Option Nat} {E : List Char}
    (hb : StepBound step) (hE : StepEnd step E) :
    ∀ f s, 1 ≤ runLen step f s → s.getD (runLen step f s - 1) ' ' ∈ E := by
  intro f
  induction f with
  | zero => intro s h; simp [runLen] at h
  | succ f ih =>
    intro s h
    cases hs : step s with
    | none => simp [runLen, hs] at h
    | some n =>
      simp only [runLen, hs] at h ⊢
      obtain ⟨h1, h2⟩ := hb s n hs
      by_cases hm : 1 ≤ runLen step f (s.drop n)
      · have hrec := ih (s.drop n) hm
        rw [List.getD_eq_getElem?_getD, List.getElem?_drop] at hrec
        rw [List.getD_eq_getElem?_getD]
        have : n + (runLen step f (s.drop n) - 1) = n + runLen step f (s.drop n) - 1 := by omega
        rwa [this] at hrec
      · have hz : runLen step f (s.drop n) = 0 := by omega
        rw [hz]
        simpa using hE s n hs

end Logic

namespace Logic

/-! ## The token classes of the run-style operator regexes -/

theorem dashRun_dash (r : List Char) : dashRun ('-' :: r) = dashRun r + 1 := rfl

theorem dashRun_other {c : Char} (hc : c ≠ '-') (r : List Char) :
    dashRun (c :: r) = 0 := by
  unfold dashRun
  split
  · next r1 heq => injection heq with h1 _; exact absurd h1 hc
  · rfl

theorem dashRun_le : ∀ r : List Char, dashRun r ≤ r.length := by
  intro r
  induction r with
  | nil => simp [dashRun]
  | cons c r' ih =>
    by_cases hc : c = '-'
    · subst hc; rw [dashRun_dash]; simp; omega
    · rw [dashRun_other hc]; simp

theorem dashRun_getD : ∀ r : List Char, ∀ i, i < dashRun r → r.getD i ' ' = '-' := by
  intro r
  induction r with
  | nil => intro i hi; simp [dashRun] at hi
  | cons c r' ih =>
    intro i hi
    by_cases hc : c = '-'
    · subst hc
      rw [dashRun_dash] at hi
      match i with
      | 0 => rfl
      | i + 1 => exact ih i (by omega)
    · rw [dashRun_other hc] at hi; omega

theorem dashRun_take : ∀ r : List Char, r.take (dashRun r) = List.replicate (dashRun r) '-' := by
  intro r
  induction r with
  | nil => simp [dashRun]
  | cons c r' ih =>
    by_cases hc : c = '-'
    · subst hc; rw [dashRun_dash]; simp [List.replicate_succ, ih]
    · rw [dashRun_other hc]; simp

theorem dashRun_replicate_gt :
    ∀ (d : Nat) (t : List Char), dashRun (List.replicate d '-' ++ '>' :: t) = d := by
  intro d
  induction d with
  | zero => intro t; simpa using dashRun_other (by decide) t
  | succ d ih => intro t; simp only [List.replicate_succ, List.cons_append, dashRun_dash, ih]

theorem andStep_bound : StepBound andStep := by
  intro s n h
  unfold andStep at h
  split at h <;> first
    | (injection h with hn; subst hn; simp only [List.length_cons]; omega)
    | simp at h

theorem andStep_chars : StepChars andStep ['a', 'n', 'd', '&', '/', '\\', '^'] := by
  intro s n h i hi
  unfold andStep at h
  split at h <;> first
    | (injection h with hn; subst hn; interval_cases i <;> simp)
    | simp at h

theorem andStep_fixed : StepFixed andStep := by
  intro s n h t
  unfold andStep at h
  split at h <;> first
    | (injection h with hn; subst hn; rfl)
    | simp at h

theorem orStep_bound : StepBound orStep := by
  intro s n h
  unfold orStep at h
  split at h <;> first
    | (injection h with hn; subst hn; simp only [List.length_cons]; omega)
    | simp at h

theorem orStep_chars : StepChars orStep ['o', 'r', '|', '\\', '/'] := by
  intro s n h i hi
  unfold orStep at h
  split at h <;> first
    | (injection h with hn; subst hn; interval_cases i <;> simp)
    | simp at h

theorem orStep_fixed : StepFixed orStep := by
  intro s n h t
  unfold orStep at h
  split at h <;> first
    | (injection h with hn; subst hn; rfl)
    | simp at h

theorem xorStep_bound : StepBound xorStep := by
  intro s n h
  unfold xorStep at h
  split at h <;> first
    | (injection h with hn; subst hn; simp only [List.length_cons]; omega)
    | simp at h

theorem xorStep_chars : StepChars xorStep ['(', '+', ')', 'x', 'o', 'r'] := by
  intro s n h i hi
  unfold xorStep at h
  split at h <;> first
    | (injection h with hn; subst hn; interval_cases i <;> simp)
    | simp at h

theorem xorStep_fixed : StepFixed xorStep := by
  intro s n h t
  unfold xorStep at h
  split at h <;> first
    | (injection h with hn; subst hn; rfl)
    | simp at h

theorem notStep_bound : StepBound notStep := by
  intro s n h
  unfold notStep at h
  split at h <;> first
    | (injection h with hn; subst hn; simp only [List.length_cons]; omega)
    | simp at h

theorem notStep_chars : StepChars notStep ['n', 'o', 't', ' ', '!', 'Â', '¬'] := by
  intro s n h i hi
  unfold notStep at h
  split at h <;> first
    | (injection h with hn; subst hn; interval_cases i <;> simp)
    | simp at h

theorem eqStep_lt (rest : List Char) :
    eqStep ('<' :: rest) =
      (if dashRun rest = 0 then none
       else match rest.drop (dashRun rest) with
         | '>' :: _ => some (dashRun rest + 2)
         | _ => none) := rfl

theorem eqStep_other {c : Char} (h1 : c ≠ '=') (h2 : c ≠ '<') (rest : List Char) :
    eqStep (c :: rest) = none := by
  unfold eqStep
  split
  · next heq => injection heq with hx _; exact absurd hx h1
  · next heq => injection heq with hx _; exact absurd hx h2
  · rfl

theorem eqStep_cases {s : List Char} {n : Nat} (h : eqStep s = some n) :
    (∃ rest, s = '=' :: rest ∧ n = 1) ∨
    (∃ d tl, s = '<' :: (List.replicate d '-' ++ '>' :: tl) ∧ 1 ≤ d ∧ n = d + 2) := by
  match s with
  | [] => exact absurd h (by rw [show eqStep [] = none from rfl]; simp)
  | c :: rest =>
    by_cases h1 : c = '='
    · subst h1
      refine Or.inl ⟨rest, rfl, ?_⟩
      have : eqStep ('=' :: rest) = some 1 := rfl
      rw [this] at h
      simpa using h.symm
    by_cases h2 : c = '<'
    · subst h2
      rw [eqStep_lt] at h
      split at h
      · exact absurd h (by simp)
      · next hd0 =>
        split at h
        · next tl heq =>
          have hres : rest = List.replicate (dashRun rest) '-' ++ '>' :: tl := by
            conv_lhs => rw [← List.take_append_drop (dashRun rest) rest]
            rw [dashRun_take, heq]
          refine Or.inr ⟨dashRun rest, tl, ?_, by omega, by simpa using h.symm⟩
          rw [List.cons.injEq]
          exact ⟨rfl, hres⟩
        · exact absurd h (by simp)
    · exact absurd h (by rw [eqStep_other h1 h2]; simp)

theorem eqStep_replicate (d : Nat) (hd : 1 ≤ d) (t : List Char) :
    eqStep ('<' :: (List.replicate d '-' ++ '>' :: t)) = some (d + 2) := by
  rw [eqStep_lt, dashRun_replicate_gt, if_neg (by omega)]
  have hdrop : (List.replicate d '-' ++ '>' :: t).drop d = '>' :: t := by
    have := List.drop_left (List.replicate d '-') ('>' :: t)
    rwa [List.length_replicate] at this
  rw [hdrop]
  rfl

theorem eqStep_bound : StepBound eqStep := by
  intro s n h
  rcases eqStep_cases h with ⟨rest, rfl, rfl⟩ | ⟨d, tl, rfl, hd, rfl⟩
  · simp
  · simp [List.length_replicate]

theorem eqStep_chars : StepChars eqStep ['=', '<', '-', '>'] := by
  intro s n h i hi
  rcases eqStep_cases h with ⟨rest, rfl, rfl⟩ | ⟨d, tl, rfl, hd, rfl⟩
  · interval_cases i <;> simp
  · match i, hi with
    | 0, _ => simp
    | i + 1, hi =>
      rw [List.getD_cons_succ]
      by_cases hid : i < d
      · rw [List.getD_eq_getElem?_getD, List.getElem?_append_left (by simp; omega)]
        simp [List.getElem?_replicate, hid]
      · have hie : i = d := by omega
        subst hie
        rw [List.getD_eq_getElem?_getD, List.getElem?_append_right (by simp)]
        simp

theorem eqStep_fixed : StepFixed eqStep := by
  intro s n h t
  rcases eqStep_cases h with ⟨rest, rfl, rfl⟩ | ⟨d, tl, rfl, hd, rfl⟩
  · rfl
  · have htake : ('<' :: (List.replicate d '-' ++ '>' :: tl)).take (d + 2) =
        '<' :: (List.replicate d '-' ++ ['>']) := by
      rw [show d + 2 = (d + 1) + 1 from rfl, List.take_succ_cons,
        List.take_append_eq_append_take, List.take_replicate, List.length_replicate,
        show min (d + 1) d = d by omega, show d + 1 - d = 1 by omega]
      rfl
    rw [htake, List.cons_append, List.append_assoc]
    have : (['>'] : List Char) ++ t = '>' :: t := rfl
    rw [this, ← List.cons_append]
    exact eqStep_replicate d hd t

theorem eqStep_end : StepEnd eqStep ['=', '>'] := by
  intro s n h
  rcases eqStep_cases h with ⟨rest, rfl, rfl⟩ | ⟨d, tl, rfl, hd, rfl⟩
  · simp
  · rw [show d + 2 - 1 = d + 1 from by omega, List.getD_cons_succ,
      List.getD_eq_getElem?_getD, List.getElem?_append_right (by simp)]
    simp

end Logic

namespace Logic

/-! ## First-word arithmetic and run tiling -/

theorem firstW_take (s : List Char) : firstW s = s.take (firstW s).length := by
  induction s with
  | nil => rfl
  | cons c rest ih =>
    rw [firstW_cons]
    by_cases hc : c = ' '
    · simp [hc]
    · rw [if_neg hc]
      simp only [List.length_cons, List.take_succ_cons]
      rw [← ih]

theorem firstW_len_total (s : List Char) : (firstW s).length ≤ s.length := by
  induction s with
  | nil => simp [firstW]
  | cons c rest ih =>
    rw [firstW_cons]
    by_cases hc : c = ' ' <;> simp [hc] <;> omega

theorem drop_left_len {α : Type} (a b : List α) (n : Nat) (h : a.length = n) :
    (a ++ b).drop n = b := by
  rw [← h]
  exact List.drop_left a b

theorem firstW_len_ge : ∀ (s : List Char) (n : Nat), n ≤ s.length →
    (∀ i, i < n → s.getD i ' ' ≠ ' ') → n ≤ (firstW s).length := by
  intro s
  induction s with
  | nil =>
    intro n hn _
    have h0 : (firstW ([] : List Char)).length = 0 := rfl
    simp only [List.length_nil] at hn
    omega
  | cons c rest ih =>
    intro n hn hch
    match n with
    | 0 => omega
    | n + 1 =>
      have hc : c ≠ ' ' := by have := hch 0 (by omega); simpa using this
      rw [firstW_cons, if_neg hc]
      have hr := ih n (by simpa using hn) (fun i hi => by
        have := hch (i + 1) (by omega)
        rwa [List.getD_cons_succ] at this)
      simp only [List.length_cons]
      omega

theorem firstW_len_le (s : List Char) : ∀ n, s.getD n ' ' = ' ' → (firstW s).length ≤ n := by
  induction s with
  | nil => intro n _; simp [firstW]
  | cons c rest ih =>
    intro n hn
    by_cases hc : c = ' '
    · rw [firstW_cons, if_pos hc]; simp
    · rw [firstW_cons, if_neg hc]
      match n with
      | 0 => rw [List.getD_cons_zero] at hn; exact absurd hn hc
      | n + 1 =>
        rw [List.getD_cons_succ] at hn
        have := ih n hn
        simp only [List.length_cons]
        omega

theorem dropWhile_sp (s : List Char) :
    s.dropWhile (fun c => decide (c ≠ ' ')) = [] ∨
      ∃ t, s.dropWhile (fun c => decide (c ≠ ' ')) = ' ' :: t := by
  induction s with
  | nil => exact Or.inl rfl
  | cons c rest ih =>
    by_cases hc : c = ' '
    · subst hc
      exact Or.inr ⟨rest, by simp [List.dropWhile_cons]⟩
    · rw [List.dropWhile_cons, if_pos (by simp [hc])]
      exact ih

theorem drop_firstW : ∀ s : List Char,
    s.drop (firstW s).length = s.dropWhile (fun c => decide (c ≠ ' ')) := by
  intro s
  induction s with
  | nil => rfl
  | cons c rest ih =>
    by_cases hc : c = ' '
    · subst hc
      rw [firstW_cons, if_pos rfl]
      simp [List.dropWhile_cons]
    · rw [firstW_cons, if_neg hc]
      simp only [List.length_cons, List.drop_succ_cons, List.dropWhile_cons]
      rw [if_pos (by simp [hc])]
      exact ih

theorem drop_firstW_sp (s : List Char) :
    s.drop (firstW s).length = [] ∨ ∃ t, s.drop (firstW s).length = ' ' :: t := by
  rw [drop_firstW]
  exact dropWhile_sp s

theorem firstW_split (s : List Char) : s = firstW s ++ s.drop (firstW s).length := by
  conv_lhs => rw [← List.take_append_drop (firstW s).length s]
  rw [← firstW_take]

theorem runLen_tile {step : List Char → Option Nat}
    (hb : StepBound step) (hf : StepFixed step) :
    ∀ k w, w.length = k → runLen step (w.length + 1) w = w.length →
      ∀ (t : List Char) f, w.length + t.length < f →
        runLen step f (w ++ t) = w.length + runLen step (t.length + 1) t := by
  intro k
  induction k using Nat.strong_induction_on with
  | _ k ih =>
    intro w hk hw t f hflt
    match f, hflt with
    | f' + 1, hflt =>
      cases hs : step w with
      | none =>
        have h0 : runLen step (w.length + 1) w = 0 := by simp [runLen, hs]
        have hwnil : w = [] := List.length_eq_zero.mp (by omega)
        subst hwnil
        simp only [List.nil_append, List.length_nil, Nat.zero_add]
        exact runLen_fuel hb (f' + 1) t (by simpa using hflt)
      | some nn =>
        obtain ⟨h1, h2⟩ := hb w nn hs
        have hw' : nn + runLen step w.length (w.drop nn) = w.length := by
          simpa [runLen, hs] using hw
        have hlen : (w.drop nn).length = w.length - nn := by simp
        have ht1 : runLen step w.length (w.drop nn) =
            runLen step ((w.drop nn).length + 1) (w.drop nn) := by
          apply runLen_fuel hb
          simp only [List.length_drop]
          omega
        have hdroptile : runLen step ((w.drop nn).length + 1) (w.drop nn) =
            (w.drop nn).length := by
          rw [← ht1, hlen]
          omega
        have hstep : step (w ++ t) = some nn := by
          have := hf w nn hs (w.drop nn ++ t)
          rwa [← List.append_assoc, List.take_append_drop] at this
        have hdrop2 : (w ++ t).drop nn = w.drop nn ++ t := by
          rw [List.drop_append_eq_append_drop,
            show nn - w.length = 0 from by omega, List.drop_zero]
        rw [show runLen step (f' + 1) (w ++ t) =
            nn + runLen step f' ((w ++ t).drop nn) from by simp [runLen, hstep]]
        rw [hdrop2]
        rw [ih (w.drop nn).length (by omega) (w.drop nn) rfl hdroptile t f'
          (by simp only [List.length_drop]; omega)]
        simp only [List.length_drop]
        omega

theorem runLen_self_take {step : List Char → Option Nat}
    (hb : StepBound step) (hf : StepFixed step) :
    ∀ f s n, runLen step f s = n → runLen step (n + 1) (s.take n) = n := by
  intro f
  induction f using Nat.strong_induction_on with
  | _ f ih =>
    intro s n h
    match f with
    | 0 =>
      simp only [runLen] at h
      subst h
      simp [runLen, step_nil_none hb]
    | f' + 1 =>
      cases hs : step s with
      | none =>
        have h0 : n = 0 := by simpa [runLen, hs] using h.symm
        subst h0
        simp [runLen, step_nil_none hb]
      | some k =>
        obtain ⟨hk1, hk2⟩ := hb s k hs
        have h' : k + runLen step f' (s.drop k) = n := by simpa [runLen, hs] using h
        have hrec := ih f' (by omega) (s.drop k) (runLen step f' (s.drop k)) rfl
        have hsplit : s.take n = s.take k ++ (s.drop k).take (runLen step f' (s.drop k)) := by
          rw [← h']
          exact List.take_add s k _
        have hstep2 : step (s.take n) = some k := by
          rw [hsplit]
          exact hf s k hs _
        have hn1 : 1 ≤ n := by omega
        rw [show runLen step (n + 1) (s.take n) =
            k + runLen step n ((s.take n).drop k) from by simp [runLen, hstep2]]
        have hdrop3 : (s.take n).drop k = (s.drop k).take (runLen step f' (s.drop k)) := by
          rw [hsplit]
          exact drop_left_len _ _ k (by simp only [List.length_take]; omega)
        rw [hdrop3]
        have hxlen : ((s.drop k).take (runLen step f' (s.drop k))).length ≤
            runLen step f' (s.drop k) := by
          simp [List.length_take]
        rw [runLen_fuel hb n _ (by omega)]
        rw [runLen_fuel hb (runLen step f' (s.drop k) + 1) _ (by omega)] at hrec
        omega

end Logic

namespace Logic

/-! ## Matcher bridges: runs, arrows, characters -/

theorem runm_shape {behind : List Char} {step : List Char → Option Nat}
    {ahead : Option (List Char)} {G : List Char} {prev : Option Char} {s : List Char}
    {n : Nat} {r : List Char}
    (h : tokRunMatcher behind step ahead G prev s = some (n, r)) :
    prevIn prev behind = true ∧ n = runLen step (s.length + 1) s ∧ 1 ≤ n ∧ r = G := by
  cases ahead with
  | none =>
    simp only [tokRunMatcher] at h
    split at h
    case isFalse => exact absurd h (by simp)
    case isTrue hpv =>
      split at h
      case isTrue => exact absurd h (by simp)
      case isFalse hn0 =>
        simp only [Option.some.injEq, Prod.mk.injEq] at h
        exact ⟨hpv, h.1.symm, by omega, h.2.symm⟩
  | some cs =>
    simp only [tokRunMatcher] at h
    split at h
    case isFalse => exact absurd h (by simp)
    case isTrue hpv =>
      split at h
      case isTrue => exact absurd h (by simp)
      case isFalse hn0 =>
        split at h
        case h_1 =>
          simp only [Option.some.injEq, Prod.mk.injEq] at h
          exact ⟨hpv, h.1.symm, by omega, h.2.symm⟩
        case h_2 =>
          split at h
          case isTrue =>
            simp only [Option.some.injEq, Prod.mk.injEq] at h
            exact ⟨hpv, h.1.symm, by omega, h.2.symm⟩
          case isFalse => exact absurd h (by simp)

theorem runm_consumes {behind : List Char} {step : List Char → Option Nat}
    {ahead : Option (List Char)} {G : List Char} (hb : StepBound step) :
    Consumes (tokRunMatcher behind step ahead G) := by
  intro prev s n r h
  obtain ⟨_, hn, h1, _⟩ := runm_shape h
  exact ⟨h1, by rw [hn]; exact runLen_le hb _ s⟩

theorem runm_some {step : List Char → Option Nat} {cl G : List Char}
    (hb : StepBound step) (hc : StepChars step cl) (hf : StepFixed step)
    (hsp : ' ' ∉ cl) {prev : Option Char} {s : List Char} {n : Nat} {r : List Char}
    (h : tokRunMatcher [' '] step (some [' ']) G prev s = some (n, r)) :
    prevIn prev [' '] = true ∧ r = G ∧ n = (firstW s).length ∧ WordTok step (firstW s) := by
  obtain ⟨hpv, hn, h1, hr⟩ := runm_shape h
  have hahead : s.drop n = [] ∨ s.getD n ' ' = ' ' := by
    simp only [tokRunMatcher, hpv, if_true] at h
    rw [← hn] at h
    rw [if_neg (by omega)] at h
    cases hd : s.drop n with
    | nil => exact Or.inl rfl
    | cons c tl =>
      rw [hd] at h
      split at h
      · next hemp => exact absurd hemp (by simp)
      · next c2 tl2 heq =>
        injection heq with he1 he2
        subst he1
        split at h
        · next hcon =>
          refine Or.inr ?_
          have hc' : c = ' ' := by
            simp [List.contains] at hcon
            exact hcon
          have hge : (s.drop n)[0]? = s[n + 0]? := List.getElem?_drop s n 0
          rw [hd] at hge
          have hsn : s[n]? = some c := by simpa using hge.symm
          rw [List.getD_eq_getElem?_getD, hsn, hc']
          rfl
        · exact absurd h (by simp)
  have hnle : n ≤ (firstW s).length := by
    apply firstW_len_ge s n (by rw [hn]; exact runLen_le hb _ s)
    intro i hi
    have hin : s.getD i ' ' ∈ cl := by
      apply runLen_chars hb hc (s.length + 1) s i
      omega
    intro he
    rw [he] at hin
    exact hsp hin
  have hge : (firstW s).length ≤ n := by
    rcases hahead with hd | hd
    · have hlen0 := congrArg List.length hd
      simp only [List.length_drop, List.length_nil] at hlen0
      have := firstW_len_total s
      omega
    · exact firstW_len_le s n hd
  have hnfw : n = (firstW s).length := by omega
  refine ⟨hpv, hr, hnfw, ?_, ?_⟩
  · intro he
    rw [he] at hnfw
    simp at hnfw
    omega
  · have hst := runLen_self_take hb hf (s.length + 1) s n hn.symm
    rw [hnfw] at hst
    rwa [← firstW_take] at hst

theorem runm_match {step : List Char → Option Nat} {cl G : List Char}
    (hb : StepBound step) (hc : StepChars step cl) (hf : StepFixed step)
    (hsp : ' ' ∉ cl) {prev : Option Char} {s : List Char}
    (hpv : prevIn prev [' '] = true) (hw : WordTok step (firstW s)) :
    tokRunMatcher [' '] step (some [' ']) G prev s = some ((firstW s).length, G) := by
  obtain ⟨hne, hrun⟩ := hw
  have hlen1 : 1 ≤ (firstW s).length := List.length_pos.mpr hne
  have hz : runLen step ((s.drop (firstW s).length).length + 1) (s.drop (firstW s).length) = 0 := by
    rcases drop_firstW_sp s with hd | ⟨tl, hd⟩
    · rw [hd]
      simp [runLen, step_nil_none hb]
    · rw [hd]
      simp [runLen, step_space_none hb hc hsp]
  have hrl : runLen step (s.length + 1) s = (firstW s).length := by
    conv_lhs => rw [firstW_split s]
    rw [runLen_tile hb hf (firstW s).length (firstW s) rfl hrun _ _
      (by simp only [List.length_append]; omega)]
    rw [hz]
    omega
  simp only [tokRunMatcher, hpv, if_true]
  rw [hrl, if_neg (by omega)]
  rcases drop_firstW_sp s with hd | ⟨tl, hd⟩
  · rw [hd]
  · rw [hd]
    rfl

theorem thenM_nil (G : List Char) (prev : Option Char) :
    thenMatcher G prev [] = none := rfl

theorem thenM_dashhead (G : List Char) (prev : Option Char) (rest : List Char) :
    thenMatcher G prev ('-' :: rest) =
      if prev = some '<' then none
      else match ('-' :: rest).drop (dashRun ('-' :: rest)) with
        | '>' :: _ => some (dashRun ('-' :: rest) + 1, G)
        | _ => none := by
  unfold thenMatcher
  rw [if_neg (by simp [List.isPrefixOf])]
  rfl

theorem thenM_otherhead (G : List Char) (prev : Option Char) {c : Char} (rest : List Char)
    (hnp : ¬ (['t', 'h', 'e', 'n'].isPrefixOf (c :: rest) = true)) (hdash : c ≠ '-') :
    thenMatcher G prev (c :: rest) = none := by
  unfold thenMatcher
  rw [if_neg hnp]
  split
  · next heq => injection heq with h1 _; exact absurd h1 hdash
  · rfl

theorem thenM_match_then {G : List Char} {prev : Option Char} {s : List Char}
    (hp : ['t', 'h', 'e', 'n'].isPrefixOf s = true) :
    thenMatcher G prev s = some (4, G) := by
  unfold thenMatcher
  rw [if_pos hp]

theorem thenM_match_dash {G : List Char} {prev : Option Char} {d : Nat} {tl : List Char}
    (hd : 1 ≤ d) (hpv : prev ≠ some '<') :
    thenMatcher G prev (List.replicate d '-' ++ '>' :: tl) = some (d + 1, G) := by
  match d, hd with
  | d' + 1, _ =>
    rw [List.replicate_succ, List.cons_append]
    have hback : '-' :: (List.replicate d' '-' ++ '>' :: tl) =
        List.replicate (d' + 1) '-' ++ '>' :: tl := by
      rw [List.replicate_succ, List.cons_append]
    have hdr : dashRun ('-' :: (List.replicate d' '-' ++ '>' :: tl)) = d' + 1 := by
      rw [hback]
      exact dashRun_replicate_gt (d' + 1) tl
    have hdrop : ('-' :: (List.replicate d' '-' ++ '>' :: tl)).drop
        (dashRun ('-' :: (List.replicate d' '-' ++ '>' :: tl))) = '>' :: tl := by
      rw [hdr, hback]
      exact drop_left_len _ _ (d' + 1) (by simp)
    rw [thenM_dashhead, if_neg hpv, hdrop, hdr]
    rfl

theorem thenM_cases {G : List Char} {prev : Option Char} {s : List Char}
    {n : Nat} {r : List Char} (h : thenMatcher G prev s = some (n, r)) :
    r = G ∧ ((['t', 'h', 'e', 'n'].isPrefixOf s = true ∧ n = 4) ∨
      (∃ d tl, s = List.replicate d '-' ++ '>' :: tl ∧ 1 ≤ d ∧ n = d + 1 ∧
        prev ≠ some '<')) := by
  by_cases hp : ['t', 'h', 'e', 'n'].isPrefixOf s = true
  · rw [thenM_match_then hp] at h
    simp only [Option.some.injEq, Prod.mk.injEq] at h
    exact ⟨h.2.symm, Or.inl ⟨hp, h.1.symm⟩⟩
  · match s with
    | [] => exact absurd h (by rw [thenM_nil]; simp)
    | c :: rest =>
      by_cases hdash : c = '-'
      · subst hdash
        rw [thenM_dashhead] at h
        split at h
        · exact absurd h (by simp)
        · next hpv =>
          split at h
          · next tl heq =>
            simp only [Option.some.injEq, Prod.mk.injEq] at h
            refine ⟨h.2.symm, Or.inr ⟨dashRun ('-' :: rest), tl, ?_,
              by rw [dashRun_dash]; omega, h.1.symm, hpv⟩⟩
            conv_lhs => rw [← List.take_append_drop (dashRun ('-' :: rest)) ('-' :: rest)]
            rw [dashRun_take, heq]
          · exact absurd h (by simp)
      · exact absurd h (by rw [thenM_otherhead G prev rest hp hdash]; simp)

theorem thenM_consumes (G : List Char) : Consumes (thenMatcher G) := by
  intro prev s n r h
  obtain ⟨_, hcase⟩ := thenM_cases h
  rcases hcase with ⟨hp, rfl⟩ | ⟨d, tl, rfl, hd, rfl, _⟩
  · have := (List.isPrefixOf_iff_prefix.mp hp).length_le
    simp at this
    omega
  · simp only [List.length_append, List.length_replicate, List.length_cons]
    omega

theorem thenM_end {G : List Char} {prev : Option Char} {s : List Char}
    {n : Nat} {r : List Char} (h : thenMatcher G prev s = some (n, r)) :
    s.getD (n - 1) ' ' ≠ '<' := by
  obtain ⟨_, hcase⟩ := thenM_cases h
  rcases hcase with ⟨hp, rfl⟩ | ⟨d, tl, rfl, hd, rfl, _⟩
  · obtain ⟨t, ht⟩ := List.isPrefixOf_iff_prefix.mp hp
    rw [← ht]
    have hg : ((['t', 'h', 'e', 'n'] : List Char) ++ t).getD (4 - 1) ' ' = 'n' := rfl
    rw [hg]
    decide
  · rw [show d + 1 - 1 = d from by omega, List.getD_eq_getElem?_getD,
      List.getElem?_append_right (by simp)]
    simp

theorem charM_cases {ch : Char} {G : List Char} {prev : Option Char} {s : List Char}
    {n : Nat} {r : List Char} (h : charMatcher ch G prev s = some (n, r)) :
    n = 1 ∧ r = G ∧ ∃ tl, s = ch :: tl := by
  match s with
  | [] => exact absurd h (by simp [charMatcher])
  | c :: tl =>
    simp only [charMatcher] at h
    split at h
    · next hc =>
      simp only [Option.some.injEq, Prod.mk.injEq] at h
      exact ⟨h.1.symm, h.2.symm, tl, by rw [hc]⟩
    · exact absurd h (by simp)

theorem charM_match {ch : Char} {G : List Char} {prev : Option Char} {tl : List Char} :
    charMatcher ch G prev (ch :: tl) = some (1, G) := by
  simp [charMatcher]

theorem charM_consumes (ch : Char) (G : List Char) : Consumes (charMatcher ch G) := by
  intro prev s n r h
  obtain ⟨rfl, _, tl, rfl⟩ := charM_cases h
  simp

end Logic

namespace Logic

/-! ## Word structure of a scan output -/

theorem splitSp_cons_sp (rest : List Char) : splitSp (' ' :: rest) = [] :: splitSp rest := by
  rw [splitSp, if_pos rfl]

theorem splitSp_cons_ns {c : Char} (hc : c ≠ ' ') (rest : List Char) :
    splitSp (c :: rest) = (c :: firstW rest) :: (splitSp rest).tail := by
  obtain ⟨t, ht⟩ := splitSp_head rest
  rw [splitSp, if_neg hc, ht]
  rfl

theorem WordTok_chars {step : List Char → Option Nat} {cl : List Char}
    (hb : StepBound step) (hc : StepChars step cl) {w : List Char}
    (hw : WordTok step w) : ∀ c ∈ w, c ∈ cl := by
  obtain ⟨hne, hrun⟩ := hw
  intro c hcm
  obtain ⟨i, hi, hgi⟩ := List.mem_iff_getElem.mp hcm
  have hcl := runLen_chars hb hc (w.length + 1) w i (by rw [hrun]; exact hi)
  rw [List.getD_eq_getElem?_getD, List.getElem?_eq_getElem hi] at hcl
  simpa [hgi] using hcl

theorem WordTok_semi {step : List Char → Option Nat} {cl : List Char}
    (hb : StepBound step) (hc : StepChars step cl) (hsemi : ';' ∉ cl)
    {w : List Char} (hmem : ';' ∈ w) : ¬ WordTok step w :=
  fun hw => hsemi (WordTok_chars hb hc hw ';' hmem)

theorem chunks_words_main {m : Matcher}
    (hrep : ∀ prev s n r, m prev s = some (n, r) →
      r ≠ [] ∧ (∀ c ∈ r, c ≠ ' ') ∧ r.getD 0 ' ' = '&' ∧ ';' ∈ r) :
    ∀ {prev : Option Char} {S out : List Char}, Chunks m prev S out →
      ((';' ∉ firstW out → firstW out = firstW S) ∧
       (∀ w ∈ (splitSp out).tail, ';' ∉ w → w ∈ (splitSp S).tail) ∧
       (∀ p : List Char, p ≠ [] → '&' ∉ p → p.isPrefixOf (firstW out) →
         p.isPrefixOf (firstW S)) ∧
       (∀ (p w : List Char), '&' ∉ p → w ∈ (splitSp out).tail → p.isPrefixOf w →
         ∃ w', w' ∈ (splitSp S).tail ∧ p.isPrefixOf w')) := by
  intro prev S out h
  induction h with
  | nil prev =>
    exact ⟨fun _ => rfl, fun w hw _ => hw, fun p _ _ hp => hp, fun p w _ hw hp => ⟨w, hw, hp⟩⟩
  | keep hmc hch ih =>
    rename_i prev c rest out1
    obtain ⟨ih1, ih2, ih3, ih4⟩ := ih
    by_cases hc : c = ' '
    · subst hc
      refine ⟨?_, ?_, ?_, ?_⟩
      · intro _
        rw [firstW_cons, if_pos rfl, firstW_cons, if_pos rfl]
      · intro w hw hsemi
        rw [splitSp_cons_sp, List.tail_cons] at hw ⊢
        obtain ⟨t1, ht1⟩ := splitSp_head out1
        rw [ht1] at hw
        rcases List.mem_cons.mp hw with rfl | hw2
        · rw [ih1 hsemi]
          exact firstW_mem_splitSp rest
        · have := ih2 w (by rw [ht1]; exact hw2) hsemi
          exact List.mem_of_mem_tail this
      · intro p hne hamp hp
        exfalso
        match p, hne, hp with
        | p0 :: p', _, hp =>
          rw [firstW_cons, if_pos rfl] at hp
          simp [List.isPrefixOf] at hp
      · intro p w hamp hw hp
        rw [splitSp_cons_sp, List.tail_cons] at hw ⊢
        by_cases hpn : p = []
        · subst hpn
          exact ⟨firstW rest, firstW_mem_splitSp rest, by simp [List.isPrefixOf]⟩
        · obtain ⟨t1, ht1⟩ := splitSp_head out1
          rw [ht1] at hw
          rcases List.mem_cons.mp hw with rfl | hw2
          · exact ⟨firstW rest, firstW_mem_splitSp rest, ih3 p hpn hamp hp⟩
          · obtain ⟨w', hw', hp'⟩ := ih4 p w hamp (by rw [ht1]; exact hw2) hp
            exact ⟨w', List.mem_of_mem_tail hw', hp'⟩
    · refine ⟨?_, ?_, ?_, ?_⟩
      · intro hsemi
        rw [firstW_cons, if_neg hc] at hsemi ⊢
        rw [firstW_cons, if_neg hc]
        have : ';' ∉ firstW out1 := fun hm => hsemi (List.mem_cons_of_mem _ hm)
        rw [ih1 this]
      · intro w hw hsemi
        rw [splitSp_cons_ns hc, List.tail_cons] at hw ⊢
        exact ih2 w hw hsemi
      · intro p hne hamp hp
        match p, hne, hp with
        | p0 :: p', _, hp =>
          rw [firstW_cons, if_neg hc] at hp
          rw [firstW_cons, if_neg hc]
          rw [List.isPrefixOf_cons₂] at hp ⊢
          simp only [Bool.and_eq_true, beq_iff_eq] at hp ⊢
          refine ⟨hp.1, ?_⟩
          by_cases hp' : p' = []
          · subst hp'
            simp [List.isPrefixOf]
          · exact ih3 p' hp' (fun hm => hamp (List.mem_cons_of_mem _ hm)) hp.2
      · intro p w hamp hw hp
        rw [splitSp_cons_ns hc, List.tail_cons] at hw ⊢
        exact ih4 p w hamp hw hp
  | repl hmc h1 h2 hch ih =>
    rename_i prev s1 out1 r1 n1
    obtain ⟨ih1, ih2, ih3, ih4⟩ := ih
    obtain ⟨hrne, hrsp, hramp, hrsemi⟩ := hrep _ _ _ _ hmc
    obtain ⟨t1, ht1⟩ := splitSp_head out1
    have hsplit := splitSp_append_free r1 hrsp out1 _ _ ht1
    refine ⟨?_, ?_, ?_, ?_⟩
    · intro hsemi
      exfalso
      exact hsemi (by rw [firstW_append_free r1 hrsp]; exact List.mem_append_left _ hrsemi)
    · intro w hw hsemi
      rw [hsplit, List.tail_cons] at hw
      have hm2 := ih2 w (by rw [ht1]; exact hw) hsemi
      have := splitSp_tail_mem (s1.take n1) (s1.drop n1) w hm2
      rwa [List.take_append_drop] at this
    · intro p hne hamp hp
      exfalso
      rw [firstW_append_free r1 hrsp] at hp
      match r1, hrne, hramp, p, hne, hp with
      | r0 :: r', _, hramp, p0 :: p', _, hp =>
        rw [List.cons_append, List.isPrefixOf_cons₂] at hp
        simp only [Bool.and_eq_true, beq_iff_eq] at hp
        have hr0 : r0 = '&' := by simpa using hramp
        exact hamp (by rw [hp.1, hr0]; exact List.mem_cons_self _ _)
    · intro p w hamp hw hp
      rw [hsplit, List.tail_cons] at hw
      obtain ⟨w', hw', hp'⟩ := ih4 p w hamp (by rw [ht1]; exact hw) hp
      have := splitSp_tail_mem (s1.take n1) (s1.drop n1) w' hw'
      rw [List.take_append_drop] at this
      exact ⟨w', this, hp'⟩

theorem chunks_word_mem {m : Matcher}
    (hrep : ∀ prev s n r, m prev s = some (n, r) →
      r ≠ [] ∧ (∀ c ∈ r, c ≠ ' ') ∧ r.getD 0 ' ' = '&' ∧ ';' ∈ r)
    {prev : Option Char} {S out : List Char} (h : Chunks m prev S out) :
    ∀ w ∈ splitSp out, ';' ∉ w → w ∈ splitSp S := by
  obtain ⟨c1, c2, _, _⟩ := chunks_words_main hrep h
  intro w hw hsemi
  obtain ⟨t1, ht1⟩ := splitSp_head out
  rw [ht1] at hw
  rcases List.mem_cons.mp hw with rfl | hw2
  · rw [c1 hsemi]
    exact firstW_mem_splitSp S
  · exact List.mem_of_mem_tail (c2 w (by rw [ht1]; exact hw2) hsemi)

theorem chunks_word_pull {m : Matcher}
    (hrep : ∀ prev s n r, m prev s = some (n, r) →
      r ≠ [] ∧ (∀ c ∈ r, c ≠ ' ') ∧ r.getD 0 ' ' = '&' ∧ ';' ∈ r)
    {prev : Option Char} {S out : List Char} (h : Chunks m prev S out) :
    ∀ (p w : List Char), '&' ∉ p → w ∈ splitSp out → p.isPrefixOf w →
      ∃ w', w' ∈ splitSp S ∧ p.isPrefixOf w' := by
  obtain ⟨_, _, c3, c4⟩ := chunks_words_main hrep h
  intro p w hamp hw hp
  by_cases hpn : p = []
  · subst hpn
    exact ⟨firstW S, firstW_mem_splitSp S, by simp [List.isPrefixOf]⟩
  · obtain ⟨t1, ht1⟩ := splitSp_head out
    rw [ht1] at hw
    rcases List.mem_cons.mp hw with rfl | hw2
    · exact ⟨firstW S, firstW_mem_splitSp S, c3 p hpn hamp hp⟩
    · obtain ⟨w', hw', hp'⟩ := c4 p w hamp (by rw [ht1]; exact hw2) hp
      exact ⟨w', List.mem_of_mem_tail hw', hp'⟩

theorem WSafe_preserve {m : Matcher} {step : List Char → Option Nat} {cl : List Char}
    (hb : StepBound step) (hc : StepChars step cl) (hsemi : ';' ∉ cl)
    (hrep : ∀ prev s n r, m prev s = some (n, r) →
      r ≠ [] ∧ (∀ c ∈ r, c ≠ ' ') ∧ r.getD 0 ' ' = '&' ∧ ';' ∈ r)
    {prev : Option Char} {S out : List Char} (h : Chunks m prev S out)
    (hS : WSafe step S) : WSafe step out := by
  intro w hw
  by_cases hsw : ';' ∈ w
  · exact WordTok_semi hb hc hsemi hsw
  · exact hS w (chunks_word_mem hrep h w hw hsw)

theorem NSafe_preserve {m : Matcher}
    (hrep : ∀ prev s n r, m prev s = some (n, r) →
      r ≠ [] ∧ (∀ c ∈ r, c ≠ ' ') ∧ r.getD 0 ' ' = '&' ∧ ';' ∈ r)
    {prev : Option Char} {S out : List Char} (h : Chunks m prev S out)
    (hS : NSafe S) : NSafe out := by
  intro w hw
  refine ⟨?_, ?_, ?_⟩ <;> intro hp
  · obtain ⟨w', hw', hp'⟩ := chunks_word_pull hrep h _ w (by decide) hw hp
    exact (hS w' hw').1 hp'
  · obtain ⟨w', hw', hp'⟩ := chunks_word_pull hrep h _ w (by decide) hw hp
    exact (hS w' hw').2.1 hp'
  · obtain ⟨w', hw', hp'⟩ := chunks_word_pull hrep h _ w (by decide) hw hp
    exact (hS w' hw').2.2 hp'

theorem chunks_absent {m : Matcher} {ch : Char}
    (hrep : ∀ prev s n r, m prev s = some (n, r) → ch ∉ r) :
    ∀ {prev : Option Char} {S out : List Char}, Chunks m prev S out → ch ∉ S → ch ∉ out := by
  intro prev S out h
  induction h with
  | nil => exact fun h => h
  | keep hmc hch ih =>
    rename_i prev c rest out1
    intro hS hout
    rw [List.mem_cons] at hout
    rcases hout with rfl | hout
    · exact hS (List.mem_cons_self _ _)
    · exact ih (fun hm => hS (List.mem_cons_of_mem _ hm)) hout
  | repl hmc h1 h2 hch ih =>
    rename_i prev s1 out1 r1 n1
    intro hS hout
    rw [List.mem_append] at hout
    rcases hout with hr | hout
    · exact hrep _ _ _ _ hmc hr
    · exact ih (fun hm => hS (List.drop_subset _ _ hm)) hout

theorem charM_self {ch : Char} {G : List Char} (hG : ch ∉ G) :
    ∀ {prev : Option Char} {S out : List Char},
      Chunks (charMatcher ch G) prev S out → ch ∉ out := by
  intro prev S out h
  induction h with
  | nil => simp
  | keep hmc hch ih =>
    rename_i prev c rest out1
    intro hout
    rw [List.mem_cons] at hout
    rcases hout with rfl | hout
    · rw [charM_match] at hmc
      cases hmc
    · exact ih hout
  | repl hmc h1 h2 hch ih =>
    rename_i prev s1 out1 r1 n1
    intro hout
    rw [List.mem_append] at hout
    rcases hout with hr | hout
    · obtain ⟨_, rfl, _⟩ := charM_cases hmc
      exact hG hr
    · exact ih hout

theorem NM_char {ch : Char} {G : List Char} :
    ∀ (s : List Char) (prev : Option Char), ch ∉ s → NM (charMatcher ch G) prev s := by
  intro s
  induction s with
  | nil => intro prev _; trivial
  | cons c rest ih =>
    intro prev hs
    rw [List.mem_cons] at hs
    push_neg at hs
    rw [NM]
    refine ⟨?_, ih (some c) hs.2⟩
    simp only [charMatcher]
    rw [if_neg (fun he => hs.1 he.symm)]

end Logic

namespace Logic

/-! ## Self-safety of the run passes -/

theorem prevIn_none (cs : List Char) : prevIn none cs = true := rfl

theorem prevIn_sp_sp : prevIn (some ' ') [' '] = true := by decide

theorem prevIn_sp_false {c : Char} (hc : c ≠ ' ') : prevIn (some c) [' '] = false := by
  simp [prevIn, List.contains]
  first
  | exact hc
  | exact fun h => hc h.symm
  | exact fun h => hc h

theorem isPrefixOf_of_firstW {p x : List Char} (h : p.isPrefixOf (firstW x)) :
    p.isPrefixOf x := by
  rw [List.isPrefixOf_iff_prefix] at h ⊢
  exact h.trans (List.takeWhile_prefix _)

theorem run_self {step : List Char → Option Nat} {cl G : List Char}
    (hb : StepBound step) (hc : StepChars step cl) (hf : StepFixed step)
    (hsp : ' ' ∉ cl) (hsemi : ';' ∉ cl)
    (hGsp : ∀ c ∈ G, c ≠ ' ') (hGsemi : ';' ∈ G) :
    ∀ {prev : Option Char} {S out : List Char},
      Chunks (tokRunMatcher [' '] step (some [' ']) G) prev S out →
      (if prevIn prev [' '] = true
       then ∀ w ∈ splitSp out, ¬ WordTok step w
       else ((∀ w ∈ (splitSp out).tail, ¬ WordTok step w) ∧ firstW out = firstW S)) := by
  intro prev S out h
  induction h with
  | nil prev =>
    by_cases hpv : prevIn prev [' '] = true
    · rw [if_pos hpv]
      intro w hw
      rw [show splitSp [] = [[]] from rfl] at hw
      rcases List.mem_cons.mp hw with rfl | hw2
      · exact fun ht => ht.1 rfl
      · simp at hw2
    · rw [if_neg hpv]
      refine ⟨?_, rfl⟩
      intro w hw
      rw [show splitSp [] = [[]] from rfl, List.tail_cons] at hw
      simp at hw
  | keep hmc hch ih =>
    rename_i prev c rest out1
    by_cases hpv : prevIn prev [' '] = true
    · rw [if_pos hpv]
      by_cases hcsp : c = ' '
      · subst hcsp
        rw [if_pos prevIn_sp_sp] at ih
        intro w hw
        rw [splitSp_cons_sp] at hw
        rcases List.mem_cons.mp hw with rfl | hw2
        · exact fun ht => ht.1 rfl
        · exact ih w hw2
      · rw [if_neg (by simp [prevIn_sp_false hcsp])] at ih
        obtain ⟨iht, ihf⟩ := ih
        intro w hw
        rw [splitSp_cons_ns hcsp] at hw
        rcases List.mem_cons.mp hw with rfl | hw2
        · intro hwt
          rw [ihf] at hwt
          have hsome : tokRunMatcher [' '] step (some [' ']) G prev (c :: rest) =
              some ((firstW (c :: rest)).length, G) :=
            runm_match hb hc hf hsp hpv
              (by rw [firstW_cons, if_neg hcsp]; exact hwt)
          rw [hmc] at hsome
          cases hsome
        · exact iht w hw2
    · rw [if_neg hpv]
      by_cases hcsp : c = ' '
      · subst hcsp
        rw [if_pos prevIn_sp_sp] at ih
        refine ⟨?_, ?_⟩
        · intro w hw
          rw [splitSp_cons_sp, List.tail_cons] at hw
          exact ih w hw
        · rw [firstW_cons, if_pos rfl, firstW_cons, if_pos rfl]
      · rw [if_neg (by simp [prevIn_sp_false hcsp])] at ih
        obtain ⟨iht, ihf⟩ := ih
        refine ⟨?_, ?_⟩
        · intro w hw
          rw [splitSp_cons_ns hcsp, List.tail_cons] at hw
          exact iht w hw
        · rw [firstW_cons, if_neg hcsp, firstW_cons, if_neg hcsp, ihf]
  | repl hmc h1 h2 hch ih =>
    rename_i prev s1 out1 r1 n1
    obtain ⟨hpv, hG, hn, hwt⟩ := runm_some hb hc hf hsp hmc
    subst hG
    rw [if_pos hpv]
    have hend : s1.getD (n1 - 1) ' ' ∈ cl := by
      obtain ⟨_, hnr, hn1, _⟩ := runm_shape hmc
      exact runLen_chars hb hc (s1.length + 1) s1 (n1 - 1) (by rw [← hnr]; omega)
    have hsub : prevIn (some (s1.getD (n1 - 1) ' ')) [' '] = false := by
      apply prevIn_sp_false
      intro he
      rw [he] at hend
      exact hsp hend
    rw [if_neg (by rw [hsub]; simp)] at ih
    obtain ⟨iht, _⟩ := ih
    intro w hw
    obtain ⟨t1, ht1⟩ := splitSp_head out1
    rw [splitSp_append_free r1 hGsp out1 _ _ ht1] at hw
    rcases List.mem_cons.mp hw with rfl | hw2
    · exact WordTok_semi hb hc hsemi (List.mem_append_left _ hGsemi)
    · exact iht w (by rw [ht1]; exact hw2)

end Logic

namespace Logic

/-! ## Self-safety of the `not` pass -/

theorem prevIn3_sp : prevIn (some ' ') [' ', '(', ')'] = true := by decide

theorem prevIn3_false {c : Char} (h1 : c ≠ ' ') (h2 : c ≠ '(') (h3 : c ≠ ')') :
    prevIn (some c) [' ', '(', ')'] = false := by
  simp [prevIn, List.contains]
  refine ⟨?_, ?_, ?_⟩ <;> intro h
  · exact h1 h
  · exact h2 h
  · exact h3 h

theorem NotSafe_nil : NotSafe [] := by
  refine ⟨?_, ?_, ?_⟩ <;> decide

theorem notStep_not (x : List Char) : notStep ('n' :: 'o' :: 't' :: x) ≠ none := by
  unfold notStep
  split
  · simp
  · simp
  · simp
  · simp
  · next h1 h2 h3 h4 => exact absurd rfl (h2 x)

theorem not_self {G : List Char}
    (hGsp : ∀ c ∈ G, c ≠ ' ') (hGamp : G.getD 0 ' ' = '&') (hGne : G ≠ []) :
    ∀ {prev : Option Char} {S out : List Char},
      Chunks (tokRunMatcher [' ', '(', ')'] notStep none G) prev S out →
      (((prev = none ∨ prev = some ' ') → NotSafe (firstW out)) ∧
       (∀ w ∈ (splitSp out).tail, NotSafe w) ∧
       (prevIn prev [' ', '(', ')'] = false →
         ∀ p : List Char, '(' ∉ p → ')' ∉ p → ' ' ∉ p → '&' ∉ p →
           p.isPrefixOf out → p.isPrefixOf S)) := by
  intro prev S out h
  induction h with
  | nil prev =>
    refine ⟨fun _ => NotSafe_nil, ?_, fun _ p _ _ _ _ hp => hp⟩
    intro w hw
    rw [show splitSp [] = [[]] from rfl, List.tail_cons] at hw
    simp at hw
  | keep hmc hch ih =>
    rename_i prevS c rest out1
    obtain ⟨iha, ihb, ihc⟩ := ih
    refine ⟨?_, ?_, ?_⟩
    · intro hyp
      have hbnd : prevIn prevS [' ', '(', ')'] = true := by
        rcases hyp with rfl | rfl
        · rfl
        · exact prevIn3_sp
      by_cases hcsp : c = ' '
      · subst hcsp
        rw [firstW_cons, if_pos rfl]
        exact NotSafe_nil
      · rw [firstW_cons, if_neg hcsp]
        have hstep : notStep (c :: rest) = none := by
          cases hns : notStep (c :: rest) with
          | none => rfl
          | some k =>
            exfalso
            obtain ⟨hk1, _⟩ := notStep_bound _ _ hns
            have hrl : ¬ runLen notStep ((c :: rest).length + 1) (c :: rest) = 0 := by
              simp only [List.length_cons, runLen, hns]
              omega
            have hM : tokRunMatcher [' ', '(', ')'] notStep none G prevS (c :: rest) =
                some (runLen notStep ((c :: rest).length + 1) (c :: rest), G) := by
              simp only [tokRunMatcher, hbnd, if_true]
              rw [if_neg hrl]
            rw [hmc] at hM
            cases hM
        refine ⟨?_, ?_, ?_⟩ <;> intro hp
        · rw [List.isPrefixOf_cons₂] at hp
          simp only [Bool.and_eq_true, beq_iff_eq] at hp
          obtain ⟨hc0, hp2⟩ := hp
          subst hc0
          have hpull := ihc (by decide) ['o', 't'] (by decide) (by decide) (by decide)
            (by decide) (isPrefixOf_of_firstW hp2)
          obtain ⟨t2, ht2⟩ := List.isPrefixOf_iff_prefix.mp hpull
          rw [← ht2] at hstep
          exact notStep_not t2 hstep
        · rw [List.isPrefixOf_cons₂] at hp
          simp only [Bool.and_eq_true, beq_iff_eq] at hp
          obtain ⟨hc0, _⟩ := hp
          subst hc0
          rw [show notStep ('!' :: rest) = some 1 from rfl] at hstep
          cases hstep
        · rw [List.isPrefixOf_cons₂] at hp
          simp only [Bool.and_eq_true, beq_iff_eq] at hp
          obtain ⟨hc0, hp2⟩ := hp
          subst hc0
          have hpull := ihc (by decide) ['¬'] (by decide) (by decide) (by decide)
            (by decide) (isPrefixOf_of_firstW hp2)
          obtain ⟨t2, ht2⟩ := List.isPrefixOf_iff_prefix.mp hpull
          rw [← ht2] at hstep
          have h2s : notStep ('Â' :: (['¬'] ++ t2)) = some 2 := rfl
          rw [h2s] at hstep
          cases hstep
    · intro w hw
      by_cases hcsp : c = ' '
      · subst hcsp
        rw [splitSp_cons_sp, List.tail_cons] at hw
        obtain ⟨t1, ht1⟩ := splitSp_head out1
        rw [ht1] at hw
        rcases List.mem_cons.mp hw with rfl | hw2
        · exact iha (Or.inr rfl)
        · exact ihb w (by rw [ht1]; exact hw2)
      · rw [splitSp_cons_ns hcsp, List.tail_cons] at hw
        exact ihb w hw
    · intro hpv p h1 h2 h3 h4 hp
      match p, hp with
      | [], _ => simp [List.isPrefixOf]
      | p0 :: p', hp =>
        rw [List.isPrefixOf_cons₂] at hp ⊢
        simp only [Bool.and_eq_true, beq_iff_eq] at hp ⊢
        obtain ⟨hc0, hp2⟩ := hp
        refine ⟨hc0, ?_⟩
        have hcsub : prevIn (some c) [' ', '(', ')'] = false := by
          apply prevIn3_false
          · intro he; exact h3 (by rw [← he, ← hc0]; exact List.mem_cons_self _ _)
          · intro he; exact h1 (by rw [← he, ← hc0]; exact List.mem_cons_self _ _)
          · intro he; exact h2 (by rw [← he, ← hc0]; exact List.mem_cons_self _ _)
        exact ihc hcsub p' (fun hm => h1 (List.mem_cons_of_mem _ hm))
          (fun hm => h2 (List.mem_cons_of_mem _ hm))
          (fun hm => h3 (List.mem_cons_of_mem _ hm))
          (fun hm => h4 (List.mem_cons_of_mem _ hm)) hp2
  | repl hmc hn1 hn2 hch ih =>
    rename_i prevS s1 out1 r1 n1
    obtain ⟨ihaa, ihb, _⟩ := ih
    obtain ⟨hpv3, hnr, hge1, hG⟩ := runm_shape hmc
    subst hG
    obtain ⟨t1, ht1⟩ := splitSp_head out1
    refine ⟨?_, ?_, ?_⟩
    · intro _
      rw [firstW_append_free r1 hGsp]
      match r1, hGne, hGamp with
      | g0 :: g', _, hGamp =>
        have hg0 : g0 = '&' := by simpa using hGamp
        subst hg0
        refine ⟨?_, ?_, ?_⟩ <;> intro hp
        · rw [List.cons_append, List.isPrefixOf_cons₂] at hp
          simp at hp
        · rw [List.cons_append, List.isPrefixOf_cons₂] at hp
          simp at hp
        · rw [List.cons_append, List.isPrefixOf_cons₂] at hp
          simp at hp
    · intro w hw
      rw [splitSp_append_free r1 hGsp out1 _ _ ht1, List.tail_cons] at hw
      exact ihb w (by rw [ht1]; exact hw)
    · intro hpv
      rw [hpv3] at hpv
      cases hpv

end Logic

namespace Logic

/-! ## Arrow-rewrite safety: self and preservation -/

theorem NM_drop {m : Matcher} :
    ∀ (s : List Char) (prev : Option Char), NM m prev s →
      ∀ n, 1 ≤ n → n ≤ s.length → NM m (some (s.getD (n - 1) ' ')) (s.drop n) := by
  intro s
  induction s with
  | nil => intro prev _ n h1 h2; simp at h2; omega
  | cons c rest ih =>
    intro prev h n h1 h2
    rw [NM] at h
    match n, h1 with
    | 1, _ => simpa using h.2
    | n + 2, _ =>
      have hrec := ih (some c) h.2 (n + 1) (by omega) (by simp at h2 ⊢; omega)
      simpa using hrec

theorem foldl_last_mem : ∀ (r : List Char) (p : Option Char), r ≠ [] →
    ∃ c ∈ r, r.foldl (fun _ ch => some ch) p = some c := by
  intro r
  induction r with
  | nil => intro p h; exact absurd rfl h
  | cons c r' ih =>
    intro p _
    by_cases hr' : r' = []
    · subst hr'
      exact ⟨c, List.mem_cons_self _ _, rfl⟩
    · obtain ⟨cl, hcl, he⟩ := ih (some c) hr'
      exact ⟨cl, List.mem_cons_of_mem _ hcl, he⟩

theorem NMT_glyph_walk {G2 : List Char} :
    ∀ (r : List Char) (prevEnd : Option Char) (out1 : List Char),
      (∀ c ∈ r, c ≠ 't') → (∀ c ∈ r, c ≠ '-') →
      NM (thenMatcher G2) (r.foldl (fun _ ch => some ch) prevEnd) out1 →
      NM (thenMatcher G2) prevEnd (r ++ out1) := by
  intro r
  induction r with
  | nil => intro prevEnd out1 _ _ h; simpa using h
  | cons c r' ih =>
    intro prevEnd out1 ht hd h
    rw [List.cons_append, NM]
    refine ⟨?_, ?_⟩
    · by_cases hth : ['t', 'h', 'e', 'n'].isPrefixOf (c :: (r' ++ out1)) = true
      · exfalso
        rw [List.isPrefixOf_cons₂] at hth
        simp only [Bool.and_eq_true, beq_iff_eq] at hth
        exact ht c (List.mem_cons_self _ _) hth.1.symm
      · exact thenM_otherhead G2 prevEnd _ hth (fun he => hd c (List.mem_cons_self _ _) he)
    · exact ih (some c) out1 (fun x hx => ht x (List.mem_cons_of_mem _ hx))
        (fun x hx => hd x (List.mem_cons_of_mem _ hx)) h

theorem thenM_keep_none {Gr : List Char} {m : Matcher}
    (hgAmp : ∀ prev2 s2 n r, m prev2 s2 = some (n, r) → r.getD 0 ' ' = '&')
    {prevS prevO : Option Char} {c : Char} {rest out1 : List Char}
    (hch : Chunks m (some c) rest out1)
    (hnone : thenMatcher Gr prevS (c :: rest) = none)
    (hinv : prevO = prevS ∨ (prevO ≠ some '<' ∧ prevS ≠ some '<')) :
    thenMatcher Gr prevO (c :: out1) = none := by
  cases hM : thenMatcher Gr prevO (c :: out1) with
  | none => rfl
  | some nr =>
    exfalso
    obtain ⟨n2, r2⟩ := nr
    obtain ⟨_, hcase⟩ := thenM_cases hM
    rcases hcase with ⟨hp, _⟩ | ⟨d, tl, heq, hd, _, hpvO⟩
    · rw [List.isPrefixOf_cons₂] at hp
      simp only [Bool.and_eq_true, beq_iff_eq] at hp
      obtain ⟨hc0, hhen⟩ := hp
      have hpull := chunks_prefix_pull hgAmp hch ['h', 'e', 'n'] (by decide) hhen
      have hSmatch : thenMatcher Gr prevS (c :: rest) = some (4, Gr) := by
        apply thenM_match_then
        rw [List.isPrefixOf_cons₂]
        simp only [Bool.and_eq_true, beq_iff_eq]
        exact ⟨hc0, hpull⟩
      rw [hnone] at hSmatch
      cases hSmatch
    · match d, hd with
      | d' + 1, _ =>
        rw [List.replicate_succ, List.cons_append, List.cons.injEq] at heq
        obtain ⟨hc0, hout1⟩ := heq
        have hpS : prevS ≠ some '<' := by
          rcases hinv with rfl | ⟨_, hS⟩
          · exact hpvO
          · exact hS
        have hpfx : (List.replicate d' '-' ++ ['>']).isPrefixOf out1 = true := by
          rw [List.isPrefixOf_iff_prefix]
          exact ⟨tl, by rw [List.append_assoc]; exact hout1.symm⟩
        have hpull := chunks_prefix_pull hgAmp hch (List.replicate d' '-' ++ ['>'])
          (by
            intro hm
            rcases List.mem_append.mp hm with hm | hm
            · exact absurd (List.eq_of_mem_replicate hm) (by decide)
            · exact absurd hm (by decide)) hpfx
        obtain ⟨tl2, ht2⟩ := List.isPrefixOf_iff_prefix.mp hpull
        have hrest : rest = List.replicate d' '-' ++ '>' :: tl2 := by
          rw [← ht2, List.append_assoc]
          rfl
        have hSmatch : thenMatcher Gr prevS (c :: rest) = some (d' + 1 + 1, Gr) := by
          rw [hc0, hrest, show ('-' :: (List.replicate d' '-' ++ '>' :: tl2)) =
            List.replicate (d' + 1) '-' ++ '>' :: tl2 from by
              rw [List.replicate_succ, List.cons_append]]
          exact thenM_match_dash (by omega) hpS
        rw [hnone] at hSmatch
        cases hSmatch

theorem then_self {Gr : List Char}
    (hGt : ∀ c ∈ Gr, c ≠ 't') (hGd : ∀ c ∈ Gr, c ≠ '-') (hGl : ∀ c ∈ Gr, c ≠ '<')
    (hGa : Gr.getD 0 ' ' = '&') (hGne : Gr ≠ []) :
    ∀ {prevS : Option Char} {S out : List Char},
      Chunks (thenMatcher Gr) prevS S out →
      ∀ prevO, (prevO = prevS ∨ (prevO ≠ some '<' ∧ prevS ≠ some '<')) →
        NM (thenMatcher Gr) prevO out := by
  have hgAmp : ∀ prev2 s2 n r, thenMatcher Gr prev2 s2 = some (n, r) →
      r.getD 0 ' ' = '&' := by
    intro p2 s2 n r h
    obtain ⟨rfl, _⟩ := thenM_cases h
    exact hGa
  intro prevS S out h
  induction h with
  | nil prev => intro prevO _; trivial
  | keep hmc hch ih =>
    rename_i prevS c rest out1
    intro prevO hinv
    rw [NM]
    exact ⟨thenM_keep_none hgAmp hch hmc hinv, ih (some c) (Or.inl rfl)⟩
  | repl hmc h1 h2 hch ih =>
    rename_i prevS s1 out1 r1 n1
    intro prevO hinv
    obtain ⟨hr1, _⟩ := thenM_cases hmc
    subst hr1
    obtain ⟨cl, hclmem, hcl⟩ := foldl_last_mem r1 prevO hGne
    refine NMT_glyph_walk r1 prevO out1 hGt hGd (ih _ ?_)
    rw [hcl]
    right
    refine ⟨?_, ?_⟩
    · intro he; injection he with he2; exact hGl cl hclmem he2
    · intro he; injection he with he2; exact thenM_end hmc he2

theorem then_transfer {Gr : List Char} {m : Matcher}
    (hrep : ∀ prev2 s2 n r, m prev2 s2 = some (n, r) →
      (r.getD 0 ' ' = '&' ∧ r ≠ [] ∧ (∀ c ∈ r, c ≠ 't') ∧ (∀ c ∈ r, c ≠ '-') ∧
        (∀ c ∈ r, c ≠ '<')))
    (hend : ∀ prev2 s2 n r, m prev2 s2 = some (n, r) → s2.getD (n - 1) ' ' ≠ '<') :
    ∀ {prevS : Option Char} {S out : List Char},
      Chunks m prevS S out → NM (thenMatcher Gr) prevS S →
      ∀ prevO, (prevO = prevS ∨ (prevO ≠ some '<' ∧ prevS ≠ some '<')) →
        NM (thenMatcher Gr) prevO out := by
  have hgAmp : ∀ prev2 s2 n r, m prev2 s2 = some (n, r) → r.getD 0 ' ' = '&' :=
    fun p2 s2 n r h => (hrep p2 s2 n r h).1
  intro prevS S out h
  induction h with
  | nil prev => intro _ prevO _; trivial
  | keep hmc hch ih =>
    rename_i prevS c rest out1
    intro hNM prevO hinv
    rw [NM] at hNM
    rw [NM]
    exact ⟨thenM_keep_none hgAmp hch hNM.1 hinv, ih hNM.2 (some c) (Or.inl rfl)⟩
  | repl hmc h1 h2 hch ih =>
    rename_i prevS s1 out1 r1 n1
    intro hNM prevO hinv
    obtain ⟨hamp, hrne, hrt, hrd, hrl⟩ := hrep _ _ _ _ hmc
    obtain ⟨cl, hclmem, hcl⟩ := foldl_last_mem r1 prevO hrne
    refine NMT_glyph_walk r1 prevO out1 hrt hrd
      (ih (NM_drop s1 prevS hNM n1 h1 h2) _ ?_)
    rw [hcl]
    right
    refine ⟨?_, ?_⟩
    · intro he; injection he with he2; exact hrl cl hclmem he2
    · intro he; injection he with he2; exact hend _ _ _ _ hmc he2

end Logic

namespace Logic

/-! ## No-match on safe strings -/

theorem NM_run {step : List Char → Option Nat} {cl G : List Char}
    (hb : StepBound step) (hc : StepChars step cl) (hf : StepFixed step)
    (hsp : ' ' ∉ cl) :
    ∀ (s : List Char) (prev : Option Char),
      (∀ w ∈ (splitSp s).tail, ¬ WordTok step w) →
      (prevIn prev [' '] = true → ¬ WordTok step (firstW s)) →
      NM (tokRunMatcher [' '] step (some [' ']) G) prev s := by
  intro s
  induction s with
  | nil => intro prev _ _; trivial
  | cons c rest ih =>
    intro prev htail hhead
    rw [NM]
    refine ⟨?_, ?_⟩
    · cases hM : tokRunMatcher [' '] step (some [' ']) G prev (c :: rest) with
      | none => rfl
      | some nr =>
        exfalso
        obtain ⟨n2, r2⟩ := nr
        obtain ⟨hpv, _, _, hwt⟩ := runm_some hb hc hf hsp hM
        exact hhead hpv hwt
    · by_cases hcsp : c = ' '
      · subst hcsp
        rw [splitSp_cons_sp, List.tail_cons] at htail
        apply ih (some ' ')
        · intro w hw
          exact htail w (List.mem_of_mem_tail hw)
        · intro _
          exact htail (firstW rest) (firstW_mem_splitSp rest)
      · rw [splitSp_cons_ns hcsp, List.tail_cons] at htail
        apply ih (some c)
        · exact htail
        · intro hpv
          rw [prevIn_sp_false hcsp] at hpv
          cases hpv

theorem NM_run_of_WSafe {step : List Char → Option Nat} {cl G : List Char}
    (hb : StepBound step) (hc : StepChars step cl) (hf : StepFixed step)
    (hsp : ' ' ∉ cl) {s : List Char} (hW : WSafe step s) (prev : Option Char) :
    NM (tokRunMatcher [' '] step (some [' ']) G) prev s := by
  apply NM_run hb hc hf hsp
  · intro w hw
    exact hW w (List.mem_of_mem_tail hw)
  · intro _
    exact hW (firstW s) (firstW_mem_splitSp s)

theorem NM_not {G : List Char} :
    ∀ (s : List Char) (prev : Option Char),
      ('(' ∉ s) → (')' ∉ s) →
      (∀ w ∈ (splitSp s).tail, NotSafe w) →
      (prevIn prev [' ', '(', ')'] = true → NotSafe (firstW s)) →
      NM (tokRunMatcher [' ', '(', ')'] notStep none G) prev s := by
  intro s
  induction s with
  | nil => intro prev _ _ _ _; trivial
  | cons c rest ih =>
    intro prev hlp hrp htail hhead
    rw [NM]
    refine ⟨?_, ?_⟩
    · cases hM : tokRunMatcher [' ', '(', ')'] notStep none G prev (c :: rest) with
      | none => rfl
      | some nr =>
        exfalso
        obtain ⟨n2, r2⟩ := nr
        obtain ⟨hpv, hnr, hn1, _⟩ := runm_shape hM
        have hN := hhead hpv
        cases hnsv : notStep (c :: rest) with
        | none =>
          rw [show runLen notStep ((c :: rest).length + 1) (c :: rest) = 0 from by
            simp [runLen, hnsv]] at hnr
          omega
        | some k =>
          unfold notStep at hnsv
          split at hnsv
          · next t4 heq =>
            rw [heq] at hN
            rw [show firstW ('n' :: 'o' :: 't' :: ' ' :: t4) = ['n', 'o', 't'] from rfl] at hN
            exact hN.1 (by decide)
          · next t4 hno heq =>
            rw [heq] at hN
            rw [show firstW ('n' :: 'o' :: 't' :: t4) = 'n' :: 'o' :: 't' :: firstW t4
              from rfl] at hN
            exact hN.1 (by simp [List.isPrefixOf])
          · next t4 heq =>
            rw [heq] at hN
            rw [show firstW ('!' :: t4) = '!' :: firstW t4 from rfl] at hN
            exact hN.2.1 (by simp [List.isPrefixOf])
          · next t4 heq =>
            rw [heq] at hN
            rw [show firstW ('Â' :: '¬' :: t4) = 'Â' :: '¬' :: firstW t4 from rfl] at hN
            exact hN.2.2 (by simp [List.isPrefixOf])
          · cases hnsv
    · by_cases hcsp : c = ' '
      · subst hcsp
        rw [splitSp_cons_sp, List.tail_cons] at htail
        apply ih (some ' ')
        · exact fun hm => hlp (List.mem_cons_of_mem _ hm)
        · exact fun hm => hrp (List.mem_cons_of_mem _ hm)
        · exact fun w hw => htail w (List.mem_of_mem_tail hw)
        · intro _
          exact htail (firstW rest) (firstW_mem_splitSp rest)
      · rw [splitSp_cons_ns hcsp, List.tail_cons] at htail
        apply ih (some c)
        · exact fun hm => hlp (List.mem_cons_of_mem _ hm)
        · exact fun hm => hrp (List.mem_cons_of_mem _ hm)
        · exact htail
        · intro hpv
          have hc1 : c ≠ '(' := fun he => hlp (by rw [he]; exact List.mem_cons_self _ _)
          have hc2 : c ≠ ')' := fun he => hrp (by rw [he]; exact List.mem_cons_self _ _)
          rw [prevIn3_false hcsp hc1 hc2] at hpv
          cases hpv

end Logic

namespace Logic

/-! ## Per-pass replacement facts -/

theorem runm_hrep {behind : List Char} {step : List Char → Option Nat}
    {ahead : Option (List Char)} {G : List Char}
    (h1 : G ≠ []) (h2 : ∀ c ∈ G, c ≠ ' ') (h3 : G.getD 0 ' ' = '&') (h4 : ';' ∈ G) :
    ∀ prev s n r, tokRunMatcher behind step ahead G prev s = some (n, r) →
      r ≠ [] ∧ (∀ c ∈ r, c ≠ ' ') ∧ r.getD 0 ' ' = '&' ∧ ';' ∈ r := by
  intro prev s n r h
  obtain ⟨_, _, _, rfl⟩ := runm_shape h
  exact ⟨h1, h2, h3, h4⟩

theorem thenM_hrep {G : List Char}
    (h1 : G ≠ []) (h2 : ∀ c ∈ G, c ≠ ' ') (h3 : G.getD 0 ' ' = '&') (h4 : ';' ∈ G) :
    ∀ prev s n r, thenMatcher G prev s = some (n, r) →
      r ≠ [] ∧ (∀ c ∈ r, c ≠ ' ') ∧ r.getD 0 ' ' = '&' ∧ ';' ∈ r := by
  intro prev s n r h
  obtain ⟨rfl, _⟩ := thenM_cases h
  exact ⟨h1, h2, h3, h4⟩

theorem charM_hrep {ch : Char} {G : List Char}
    (h1 : G ≠ []) (h2 : ∀ c ∈ G, c ≠ ' ') (h3 : G.getD 0 ' ' = '&') (h4 : ';' ∈ G) :
    ∀ prev s n r, charMatcher ch G prev s = some (n, r) →
      r ≠ [] ∧ (∀ c ∈ r, c ≠ ' ') ∧ r.getD 0 ' ' = '&' ∧ ';' ∈ r := by
  intro prev s n r h
  obtain ⟨_, rfl, _⟩ := charM_cases h
  exact ⟨h1, h2, h3, h4⟩

theorem runm_trep {behind : List Char} {step : List Char → Option Nat}
    {ahead : Option (List Char)} {G : List Char}
    (h3 : G.getD 0 ' ' = '&') (h1 : G ≠ []) (ht : ∀ c ∈ G, c ≠ 't')
    (hd : ∀ c ∈ G, c ≠ '-') (hl : ∀ c ∈ G, c ≠ '<') :
    ∀ prev s n r, tokRunMatcher behind step ahead G prev s = some (n, r) →
      (r.getD 0 ' ' = '&' ∧ r ≠ [] ∧ (∀ c ∈ r, c ≠ 't') ∧ (∀ c ∈ r, c ≠ '-') ∧
        (∀ c ∈ r, c ≠ '<')) := by
  intro prev s n r h
  obtain ⟨_, _, _, rfl⟩ := runm_shape h
  exact ⟨h3, h1, ht, hd, hl⟩

theorem charM_trep {ch : Char} {G : List Char}
    (h3 : G.getD 0 ' ' = '&') (h1 : G ≠ []) (ht : ∀ c ∈ G, c ≠ 't')
    (hd : ∀ c ∈ G, c ≠ '-') (hl : ∀ c ∈ G, c ≠ '<') :
    ∀ prev s n r, charMatcher ch G prev s = some (n, r) →
      (r.getD 0 ' ' = '&' ∧ r ≠ [] ∧ (∀ c ∈ r, c ≠ 't') ∧ (∀ c ∈ r, c ≠ '-') ∧
        (∀ c ∈ r, c ≠ '<')) := by
  intro prev s n r h
  obtain ⟨_, rfl, _⟩ := charM_cases h
  exact ⟨h3, h1, ht, hd, hl⟩

theorem runm_end_notlt {behind : List Char} {step : List Char → Option Nat}
    {ahead : Option (List Char)} {G cl : List Char}
    (hb : StepBound step) (hc : StepChars step cl) (hlt : '<' ∉ cl) :
    ∀ prev s n r, tokRunMatcher behind step ahead G prev s = some (n, r) →
      s.getD (n - 1) ' ' ≠ '<' := by
  intro prev s n r h he
  obtain ⟨_, hn, h1, _⟩ := runm_shape h
  have hm := runLen_chars hb hc (s.length + 1) s (n - 1) (by rw [← hn]; omega)
  rw [he] at hm
  exact hlt hm

theorem runm_end_eq {behind : List Char} {ahead : Option (List Char)} {G : List Char} :
    ∀ prev s n r, tokRunMatcher behind eqStep ahead G prev s = some (n, r) →
      s.getD (n - 1) ' ' ≠ '<' := by
  intro prev s n r h he
  obtain ⟨_, hn, h1, _⟩ := runm_shape h
  have hm := runLen_end eqStep_bound eqStep_end (s.length + 1) s (by omega)
  rw [← hn, he] at hm
  exact absurd hm (by decide)

theorem charM_end {ch : Char} {G : List Char} (hch : ch ≠ '<') :
    ∀ prev s n r, charMatcher ch G prev s = some (n, r) → s.getD (n - 1) ' ' ≠ '<' := by
  intro prev s n r h
  obtain ⟨rfl, _, tl, rfl⟩ := charM_cases h
  simpa using hch

end Logic

namespace Logic

/-! ## Idempotence of the display formatter -/

theorem prettyPrintL_idem (s : List Char) :
    prettyPrintL (prettyPrintL s) = prettyPrintL s := by
  set S1 := replaceAllRA (tokRunMatcher [' '] andStep (some [' ']) ['&', 'a', 'n', 'd', ';']) s with hS1
  set S2 := replaceAllRA (tokRunMatcher [' '] orStep (some [' ']) ['&', 'o', 'r', ';']) S1 with hS2
  set S3 := replaceAllRA (tokRunMatcher [' ', '(', ')'] notStep none ['&', 's', 'i', 'm', ';']) S2 with hS3
  set S4 := replaceAllRA (thenMatcher ['&', 'r', 'a', 'r', 'r', ';']) S3 with hS4
  set S5 := replaceAllRA (tokRunMatcher [' '] xorStep (some [' ']) ['&', 'o', 'p', 'l', 'u', 's', ';']) S4 with hS5
  set S6 := replaceAllRA (tokRunMatcher [' '] eqStep (some [' ']) ['&', 'e', 'q', 'u', 'i', 'v', ';']) S5 with hS6
  set S7 := replaceAllRA (charMatcher '(' ['&', 'l', 'p', 'a', 'r', ';']) S6 with hS7
  set S8 := replaceAllRA (charMatcher ')' ['&', 'r', 'p', 'a', 'r', ';']) S7 with hS8
  have ch1 : Chunks (tokRunMatcher [' '] andStep (some [' ']) ['&', 'a', 'n', 'd', ';']) none s S1 :=
    chunks_replaceAll _ (runm_consumes andStep_bound) s
  have ch2 : Chunks (tokRunMatcher [' '] orStep (some [' ']) ['&', 'o', 'r', ';']) none S1 S2 :=
    chunks_replaceAll _ (runm_consumes orStep_bound) S1
  have ch3 : Chunks (tokRunMatcher [' ', '(', ')'] notStep none ['&', 's', 'i', 'm', ';']) none S2 S3 :=
    chunks_replaceAll _ (runm_consumes notStep_bound) S2
  have ch4 : Chunks (thenMatcher ['&', 'r', 'a', 'r', 'r', ';']) none S3 S4 :=
    chunks_replaceAll _ (thenM_consumes _) S3
  have ch5 : Chunks (tokRunMatcher [' '] xorStep (some [' ']) ['&', 'o', 'p', 'l', 'u', 's', ';']) none S4 S5 :=
    chunks_replaceAll _ (runm_consumes xorStep_bound) S4
  have ch6 : Chunks (tokRunMatcher [' '] eqStep (some [' ']) ['&', 'e', 'q', 'u', 'i', 'v', ';']) none S5 S6 :=
    chunks_replaceAll _ (runm_consumes eqStep_bound) S5
  have ch7 : Chunks (charMatcher '(' ['&', 'l', 'p', 'a', 'r', ';']) none S6 S7 :=
    chunks_replaceAll _ (charM_consumes '(' _) S6
  have ch8 : Chunks (charMatcher ')' ['&', 'r', 'p', 'a', 'r', ';']) none S7 S8 :=
    chunks_replaceAll _ (charM_consumes ')' _) S7
  -- and-word safety, established at stage 1, carried to the end
  have wA1 : WSafe andStep S1 := by
    have hx := run_self andStep_bound andStep_chars andStep_fixed (by decide) (by decide)
      (by decide) (by decide) ch1
    rwa [if_pos (show prevIn none [' '] = true from rfl)] at hx
  have wA2 : WSafe andStep S2 := WSafe_preserve andStep_bound andStep_chars (by decide)
    (runm_hrep (by decide) (by decide) (by decide) (by decide)) ch2 wA1
  have wA3 : WSafe andStep S3 := WSafe_preserve andStep_bound andStep_chars (by decide)
    (runm_hrep (by decide) (by decide) (by decide) (by decide)) ch3 wA2
  have wA4 : WSafe andStep S4 := WSafe_preserve andStep_bound andStep_chars (by decide)
    (thenM_hrep (by decide) (by decide) (by decide) (by decide)) ch4 wA3
  have wA5 : WSafe andStep S5 := WSafe_preserve andStep_bound andStep_chars (by decide)
    (runm_hrep (by decide) (by decide) (by decide) (by decide)) ch5 wA4
  have wA6 : WSafe andStep S6 := WSafe_preserve andStep_bound andStep_chars (by decide)
    (runm_hrep (by decide) (by decide) (by decide) (by decide)) ch6 wA5
  have wA7 : WSafe andStep S7 := WSafe_preserve andStep_bound andStep_chars (by decide)
    (charM_hrep (by decide) (by decide) (by decide) (by decide)) ch7 wA6
  have wA8 : WSafe andStep S8 := WSafe_preserve andStep_bound andStep_chars (by decide)
    (charM_hrep (by decide) (by decide) (by decide) (by decide)) ch8 wA7
  -- or-word safety
  have wO2 : WSafe orStep S2 := by
    have hx := run_self orStep_bound orStep_chars orStep_fixed (by decide) (by decide)
      (by decide) (by decide) ch2
    rwa [if_pos (show prevIn none [' '] = true from rfl)] at hx
  have wO3 : WSafe orStep S3 := WSafe_preserve orStep_bound orStep_chars (by decide)
    (runm_hrep (by decide) (by decide) (by decide) (by decide)) ch3 wO2
  have wO4 : WSafe orStep S4 := WSafe_preserve orStep_bound orStep_chars (by decide)
    (thenM_hrep (by decide) (by decide) (by decide) (by decide)) ch4 wO3
  have wO5 : WSafe orStep S5 := WSafe_preserve orStep_bound orStep_chars (by decide)
    (runm_hrep (by decide) (by decide) (by decide) (by decide)) ch5 wO4
  have wO6 : WSafe orStep S6 := WSafe_preserve orStep_bound orStep_chars (by decide)
    (runm_hrep (by decide) (by decide) (by decide) (by decide)) ch6 wO5
  have wO7 : WSafe orStep S7 := WSafe_preserve orStep_bound orStep_chars (by decide)
    (charM_hrep (by decide) (by decide) (by decide) (by decide)) ch7 wO6
  have wO8 : WSafe orStep S8 := WSafe_preserve orStep_bound orStep_chars (by decide)
    (charM_hrep (by decide) (by decide) (by decide) (by decide)) ch8 wO7
  -- not-word safety
  have ns3 : NSafe S3 := by
    obtain ⟨hhead, htail, _⟩ := not_self (by decide) (by decide) (by decide) ch3
    intro w hw
    obtain ⟨t1, ht1⟩ := splitSp_head S3
    rw [ht1] at hw
    rcases List.mem_cons.mp hw with rfl | hw2
    · exact hhead (Or.inl rfl)
    · exact htail w (by rw [ht1]; exact hw2)
  have ns4 : NSafe S4 := NSafe_preserve
    (thenM_hrep (by decide) (by decide) (by decide) (by decide)) ch4 ns3
  have ns5 : NSafe S5 := NSafe_preserve
    (runm_hrep (by decide) (by decide) (by decide) (by decide)) ch5 ns4
  have ns6 : NSafe S6 := NSafe_preserve
    (runm_hrep (by decide) (by decide) (by decide) (by decide)) ch6 ns5
  have ns7 : NSafe S7 := NSafe_preserve
    (charM_hrep (by decide) (by decide) (by decide) (by decide)) ch7 ns6
  have ns8 : NSafe S8 := NSafe_preserve
    (charM_hrep (by decide) (by decide) (by decide) (by decide)) ch8 ns7
  -- arrow safety
  have th4 : NM (thenMatcher ['&', 'r', 'a', 'r', 'r', ';']) none S4 :=
    then_self (by decide) (by decide) (by decide) (by decide) (by decide) ch4 none (Or.inl rfl)
  have th5 : NM (thenMatcher ['&', 'r', 'a', 'r', 'r', ';']) none S5 :=
    then_transfer (runm_trep (by decide) (by decide) (by decide) (by decide) (by decide))
      (runm_end_notlt xorStep_bound xorStep_chars (by decide)) ch5 th4 none (Or.inl rfl)
  have th6 : NM (thenMatcher ['&', 'r', 'a', 'r', 'r', ';']) none S6 :=
    then_transfer (runm_trep (by decide) (by decide) (by decide) (by decide) (by decide))
      runm_end_eq ch6 th5 none (Or.inl rfl)
  have th7 : NM (thenMatcher ['&', 'r', 'a', 'r', 'r', ';']) none S7 :=
    then_transfer (charM_trep (by decide) (by decide) (by decide) (by decide) (by decide))
      (charM_end (by decide)) ch7 th6 none (Or.inl rfl)
  have th8 : NM (thenMatcher ['&', 'r', 'a', 'r', 'r', ';']) none S8 :=
    then_transfer (charM_trep (by decide) (by decide) (by decide) (by decide) (by decide))
      (charM_end (by decide)) ch8 th7 none (Or.inl rfl)
  -- xor-word safety
  have wX5 : WSafe xorStep S5 := by
    have hx := run_self xorStep_bound xorStep_chars xorStep_fixed (by decide) (by decide)
      (by decide) (by decide) ch5
    rwa [if_pos (show prevIn none [' '] = true from rfl)] at hx
  have wX6 : WSafe xorStep S6 := WSafe_preserve xorStep_bound xorStep_chars (by decide)
    (runm_hrep (by decide) (by decide) (by decide) (by decide)) ch6 wX5
  have wX7 : WSafe xorStep S7 := WSafe_preserve xorStep_bound xorStep_chars (by decide)
    (charM_hrep (by decide) (by decide) (by decide) (by decide)) ch7 wX6
  have wX8 : WSafe xorStep S8 := WSafe_preserve xorStep_bound xorStep_chars (by decide)
    (charM_hrep (by decide) (by decide) (by decide) (by decide)) ch8 wX7
  -- equals-word safety
  have wE6 : WSafe eqStep S6 := by
    have hx := run_self eqStep_bound eqStep_chars eqStep_fixed (by decide) (by decide)
      (by decide) (by decide) ch6
    rwa [if_pos (show prevIn none [' '] = true from rfl)] at hx
  have wE7 : WSafe eqStep S7 := WSafe_preserve eqStep_bound eqStep_chars (by decide)
    (charM_hrep (by decide) (by decide) (by decide) (by decide)) ch7 wE6
  have wE8 : WSafe eqStep S8 := WSafe_preserve eqStep_bound eqStep_chars (by decide)
    (charM_hrep (by decide) (by decide) (by decide) (by decide)) ch8 wE7
  -- parenthesis absences
  have lp7 : '(' ∉ S7 := charM_self (by decide) ch7
  have lp8 : '(' ∉ S8 := chunks_absent
    (fun p2 s2 n r h => by obtain ⟨_, rfl, _⟩ := charM_cases h; decide) ch8 lp7
  have rp8 : ')' ∉ S8 := charM_self (by decide) ch8
  -- the eight passes are the identity on the final output
  have iA : replaceAllRA (tokRunMatcher [' '] andStep (some [' ']) ['&', 'a', 'n', 'd', ';']) S8 = S8 :=
    NM_scan_id _ _ _ _ (NM_run_of_WSafe andStep_bound andStep_chars andStep_fixed (by decide) wA8 none)
  have iO : replaceAllRA (tokRunMatcher [' '] orStep (some [' ']) ['&', 'o', 'r', ';']) S8 = S8 :=
    NM_scan_id _ _ _ _ (NM_run_of_WSafe orStep_bound orStep_chars orStep_fixed (by decide) wO8 none)
  have iN : replaceAllRA (tokRunMatcher [' ', '(', ')'] notStep none ['&', 's', 'i', 'm', ';']) S8 = S8 :=
    NM_scan_id _ _ _ _ (NM_not S8 none lp8 rp8
      (fun w hw => ns8 w (List.mem_of_mem_tail hw))
      (fun _ => ns8 (firstW S8) (firstW_mem_splitSp S8)))
  have iT : replaceAllRA (thenMatcher ['&', 'r', 'a', 'r', 'r', ';']) S8 = S8 :=
    NM_scan_id _ _ _ _ th8
  have iX : replaceAllRA (tokRunMatcher [' '] xorStep (some [' ']) ['&', 'o', 'p', 'l', 'u', 's', ';']) S8 = S8 :=
    NM_scan_id _ _ _ _ (NM_run_of_WSafe xorStep_bound xorStep_chars xorStep_fixed (by decide) wX8 none)
  have iE : replaceAllRA (tokRunMatcher [' '] eqStep (some [' ']) ['&', 'e', 'q', 'u', 'i', 'v', ';']) S8 = S8 :=
    NM_scan_id _ _ _ _ (NM_run_of_WSafe eqStep_bound eqStep_chars eqStep_fixed (by decide) wE8 none)
  have iL : replaceAllRA (charMatcher '(' ['&', 'l', 'p', 'a', 'r', ';']) S8 = S8 :=
    NM_scan_id _ _ _ _ (NM_char S8 none lp8)
  have iR : replaceAllRA (charMatcher ')' ['&', 'r', 'p', 'a', 'r', ';']) S8 = S8 :=
    NM_scan_id _ _ _ _ (NM_char S8 none rp8)
  have hfin : prettyPrintL s = S8 := rfl
  rw [hfin]
  calc prettyPrintL S8
      = replaceAllRA (charMatcher ')' ['&', 'r', 'p', 'a', 'r', ';'])
          (replaceAllRA (charMatcher '(' ['&', 'l', 'p', 'a', 'r', ';'])
          (replaceAllRA (tokRunMatcher [' '] eqStep (some [' ']) ['&', 'e', 'q', 'u', 'i', 'v', ';'])
          (replaceAllRA (tokRunMatcher [' '] xorStep (some [' ']) ['&', 'o', 'p', 'l', 'u', 's', ';'])
          (replaceAllRA (thenMatcher ['&', 'r', 'a', 'r', 'r', ';'])
          (replaceAllRA (tokRunMatcher [' ', '(', ')'] notStep none ['&', 's', 'i', 'm', ';'])
          (replaceAllRA (tokRunMatcher [' '] orStep (some [' ']) ['&', 'o', 'r', ';'])
          (replaceAllRA (tokRunMatcher [' '] andStep (some [' ']) ['&', 'a', 'n', 'd', ';']) S8))))))) := rfl
    _ = S8 := by rw [iA, iO, iN, iT, iX, iE, iL, iR]

end Logic

namespace Logic

/-- C9: the display formatter (`prettyPrint` of the source, `format_display` of
the spec) is idempotent once applied: for every input string, applying it a
second time to the already-formatted result is a no-op. -/
theorem C9_prettyPrint_idempotent (s : String) :
    prettyPrint (prettyPrint s) = prettyPrint s := by
  show (⟨prettyPrintL (String.data ⟨prettyPrintL s.data⟩)⟩ : String) = ⟨prettyPrintL s.data⟩
  rw [show String.data ⟨prettyPrintL s.data⟩ = prettyPrintL s.data from rfl,
    prettyPrintL_idem]

end Logic
